import Mathlib

/-!
Verification development for the `trs_tools` module of `pyTRS_extensions`
(`src/pytrs_ext/trs_tools/trs_tools.py`).

The module extracts Township/Range/Section (TRS) records from free-form text
using custom regex patterns (`custom_trs`, `custom_trs_list`, preset format
specifications `FORMAT_A` / `FORMAT_B` / `FORMAT_C`) and serializes a
collection of records back into the compact "Format A" notation
(`trs_list_to_format_a`).

The development embeds:
  * a backtracking regular-expression engine modelling the fragment of
    Python's `re` semantics exercised by the module (greedy bounded and
    unbounded repetition, character classes, `\d`, named groups, negative
    lookahead; leftmost search; non-overlapping left-to-right `finditer`);
  * a parser for the regex source fragment used by the preset patterns,
    modelling `re.compile`;
  * the externally supplied `pytrs` record model (`pytrs.TRS`,
    `pytrs.TRS.from_twprgesec`, `pytrs.TRSList`), modelled from the spec
    since the `pytrs` library is an external collaborator of this repository;
  * the three public operations of the module.
-/

namespace TrsTools

/-! ### Regex abstract syntax

The fragment of Python regex syntax used by the module's patterns:
literals, `\d`, character classes, concatenation, greedy repetition
(`+`, `?`, `*`, and bounded forms), groups (named, unnamed and
non-capturing behave identically for `groupdict`-based consumers),
and negative lookahead. -/

inductive Rx where
  | eps
  | lit (c : Char)
  | digit
  | cls (cs : List Char)
  | seq (a b : Rx)
  | rep (lo : Nat) (hi : Option Nat) (r : Rx)
  | grp (name : Option String) (r : Rx)
  | nla (r : Rx)
deriving DecidableEq, Repr

/-- Structural size of a regex, used as a termination measure. -/
def rxMeasure : Rx → Nat
  | .eps => 1
  | .lit _ => 1
  | .digit => 1
  | .cls _ => 1
  | .seq a b => rxMeasure a + rxMeasure b + 1
  | .rep _ _ r => rxMeasure r + 1
  | .grp _ r => rxMeasure r + 1
  | .nla r => rxMeasure r + 1

/-- Named-group captures of a match, as an association list: the model of
`re.Match.groupdict()` restricted to groups that participated in the match. -/
abbrev Caps := List (String × String)

/-- Record (or overwrite) the capture of a named group. -/
def capSet (caps : Caps) (n : String) (v : String) : Caps :=
  match caps with
  | [] => [(n, v)]
  | (m, w) :: rest => if m = n then (n, v) :: rest else (m, w) :: capSet rest n v

/-- Look up a named group's capture (`groups[name]` in the source, on the
named groups that participated in the match). -/
def capGet (caps : Caps) (n : String) : String :=
  (caps.lookup n).getD ""

/-- Decrement an optional repetition bound. -/
def hiDec : Option Nat → Option Nat
  | none => none
  | some n => some (n - 1)

/-- One fuel level of the backtracking matcher, structurally recursive in
the regex; `next` is the matcher at the next lower fuel level, invoked when
a repetition re-enters itself.  The matcher is in continuation-passing
style, modelling Python `re` match semantics for the embedded fragment:
greedy quantifiers try the longest alternative first and backtrack on
failure of the continuation; a named group captures the substring it
consumed; negative lookahead succeeds without consuming exactly when its
body cannot match. -/
def matchStep
    (next : Rx → List Char → Caps →
      (Caps → List Char → Option (Caps × List Char)) → Option (Caps × List Char)) :
    Rx → List Char → Caps →
      (Caps → List Char → Option (Caps × List Char)) → Option (Caps × List Char)
  | .eps, s, caps, k => k caps s
  | .lit c, s, caps, k =>
    match s with
    | [] => none
    | c0 :: rest => if c0 = c then k caps rest else none
  | .digit, s, caps, k =>
    match s with
    | [] => none
    | c0 :: rest => if c0.isDigit then k caps rest else none
  | .cls cs, s, caps, k =>
    match s with
    | [] => none
    | c0 :: rest => if c0 ∈ cs then k caps rest else none
  | .seq a b, s, caps, k =>
    matchStep next a s caps (fun caps1 s1 => matchStep next b s1 caps1 k)
  | .grp name r, s, caps, k =>
    matchStep next r s caps (fun caps1 s1 =>
      match name with
      | some n => k (capSet caps1 n (String.mk (s.take (s.length - s1.length)))) s1
      | none => k caps1 s1)
  | .nla r, s, caps, k =>
    match matchStep next r s caps (fun caps1 s1 => some (caps1, s1)) with
    | some _ => none
    | none => k caps s
  | .rep (lo1 + 1) hi r, s, caps, k =>
    matchStep next r s caps
      (fun caps1 s1 => next (.rep lo1 (hiDec hi) r) s1 caps1 k)
  | .rep 0 hi r, s, caps, k =>
    if hi = some 0 then k caps s
    else
      match matchStep next r s caps
          (fun caps1 s1 => next (.rep 0 (hiDec hi) r) s1 caps1 k) with
      | some res => some res
      | none => k caps s

/-- Backtracking matcher with fuel: `fuel` bounds the number of repetition
steps only (every other recursion is structural in the regex); all uses
supply ample fuel, since every repetition step of the embedded patterns
consumes at least one character. -/
def matchRx : Nat → Rx → List Char → Caps →
    (Caps → List Char → Option (Caps × List Char)) → Option (Caps × List Char)
  | 0 => fun _ _ _ _ => none
  | fuel + 1 => matchStep (matchRx fuel)

/-- One match found by a search: its `groupdict` captures and its span. -/
structure MatchRes where
  caps : Caps
  ms : Nat
  me : Nat
deriving DecidableEq, Repr

/-- Scan for the leftmost match at or after position `pos` (the model of
`re.search` restarted at successive positions, which is how Python's
engine implements an unanchored search). -/
def searchAux (r : Rx) (fuel : Nat) : List Char → Nat → Option MatchRes
  | s, pos =>
    match matchRx fuel r s [] (fun caps s1 => some (caps, s1)) with
    | some (caps, s1) => some ⟨caps, pos, pos + (s.length - s1.length)⟩
    | none =>
      match s with
      | [] => none
      | _ :: t => searchAux r fuel t (pos + 1)

/-- Fuel ample for every repetition chain arising while matching `s`:
each repetition step of the embedded patterns consumes at least one
character. -/
def searchFuel (s : List Char) : Nat := 2 * s.length + 16

/-- Model of `re.search`: leftmost match anywhere in the text. -/
def reSearch (r : Rx) (s : List Char) : Option MatchRes :=
  searchAux r (searchFuel s) s 0

/-- Model of `re.finditer`: all non-overlapping matches, scanning left to
right; scanning resumes at the end of each match (one position further for
an empty match, and an empty match at the end of the text is final). -/
def finditerAux (r : Rx) (mfuel : Nat) : Nat → List Char → Nat → List MatchRes
  | 0, _, _ => []
  | fuel + 1, s, pos =>
    match searchAux r mfuel s pos with
    | none => []
    | some m =>
      let step := if m.ms < m.me then m.me - pos else m.me + 1 - pos
      m :: (if s.length < step then []
            else finditerAux r mfuel fuel (s.drop step) (pos + step))

/-- Model of `re.finditer` on a whole text. -/
def reFinditer (r : Rx) (s : List Char) : List MatchRes :=
  finditerAux r (searchFuel s) (s.length + 1) s 0

/-! ### Parser for the regex source fragment (model of `re.compile`)

The module's patterns use literals, `\d`, plain character classes,
groups `(...)`, named groups `(?P<name>...)`, negative lookahead
`(?!...)`, and the quantifiers `+`, `?`, `*`, `{m}`, `{m,n}`. -/

/-- Right-nested sequence of a list of regexes. -/
def seqList (l : List Rx) : Rx := l.foldr .seq .eps

/-- Read a run of decimal digits. -/
def readNum : List Char → Option (Nat × List Char)
  | s =>
    let ds := s.takeWhile Char.isDigit
    if ds.isEmpty then none
    else some (ds.foldl (fun n c => 10 * n + (c.toNat - '0'.toNat)) 0, s.dropWhile Char.isDigit)

/-- Read a group name (word characters up to `>`). -/
def readName : List Char → Option (String × List Char)
  | s =>
    let nm := s.takeWhile (fun c => c ≠ '>')
    match s.dropWhile (fun c => c ≠ '>') with
    | '>' :: rest => some (String.mk nm, rest)
    | _ => none

/-- Apply a trailing quantifier, if any, to a parsed atom. -/
def parseQuant (a : Rx) (s : List Char) : Option (Rx × List Char) :=
  match s with
  | '+' :: t => some (.rep 1 none a, t)
  | '?' :: t => some (.rep 0 (some 1) a, t)
  | '*' :: t => some (.rep 0 none a, t)
  | '\x7b' :: t =>
    match readNum t with
    | none => none
    | some (m, t1) =>
      match t1 with
      | '\x7d' :: t2 => some (.rep m (some m) a, t2)
      | ',' :: t2 =>
        match readNum t2 with
        | none => none
        | some (n, t3) =>
          match t3 with
          | '\x7d' :: t4 => some (.rep m (some n) a, t4)
          | _ => none
      | _ => none
  | _ => some (a, s)

/-- Parse a sequence of quantified atoms, stopping at `)` or end of input.
An atom is a group `(...)`, a named group `(?P<name>...)`, a negative
lookahead `(?!...)`, a non-capturing group `(?:...)`, a character class,
an escape, or a literal; each may carry a trailing quantifier. -/
def parseSeq : Nat → List Char → Option (List Rx × List Char)
  | 0, _ => none
  | fuel + 1, s =>
    match s with
    | [] => some ([], [])
    | ')' :: _ => some ([], s)
    | _ =>
      let atom :=
        match s with
        | '\\' :: 'd' :: t => some (Rx.digit, t)
        | '\\' :: c :: t => some (Rx.lit c, t)
        | '[' :: t =>
          (match t.dropWhile (fun c => c ≠ ']') with
           | ']' :: rest => some (Rx.cls (t.takeWhile (fun c => c ≠ ']')), rest)
           | _ => none)
        | '(' :: '?' :: 'P' :: '<' :: t =>
          (match readName t with
           | none => none
           | some (nm, t1) =>
             match parseSeq fuel t1 with
             | some (l, ')' :: t2) => some (Rx.grp (some nm) (seqList l), t2)
             | _ => none)
        | '(' :: '?' :: '!' :: t =>
          (match parseSeq fuel t with
           | some (l, ')' :: t2) => some (Rx.nla (seqList l), t2)
           | _ => none)
        | '(' :: '?' :: ':' :: t =>
          (match parseSeq fuel t with
           | some (l, ')' :: t2) => some (Rx.grp none (seqList l), t2)
           | _ => none)
        | '(' :: t =>
          (match parseSeq fuel t with
           | some (l, ')' :: t2) => some (Rx.grp none (seqList l), t2)
           | _ => none)
        | '+' :: _ => none
        | '?' :: _ => none
        | '*' :: _ => none
        | c :: t => some (Rx.lit c, t)
        | [] => none
      match atom with
      | none => none
      | some (a, t) =>
        match parseQuant a t with
        | none => none
        | some (a1, t1) =>
          match parseSeq fuel t1 with
          | none => none
          | some (l, t2) => some (a1 :: l, t2)

/-- Model of `re.compile` on a pattern source string. -/
def parseRx (p : String) : Option Rx :=
  match parseSeq (p.length + 1) p.data with
  | some (l, []) => some (seqList l)
  | _ => none

/-! ### The external `pytrs` record model

`pytrs` is an external collaborator of this repository (its TRS record and
collection types are consumed, never defined, by the source), so the
following definitions are modelled from the spec's description of that
interface. -/

/-- Modelled from the spec: a `pytrs.TRS` record is an immutable
Township/Range/Section identifier with a derived Township/Range key and a
section-number text, or one of the two sentinel states ("error", carrying
the original text, and "undefined"). -/
inductive TRS where
  | valid (twprge : String) (sec : String)
  | error (source : String)
  | undef
deriving DecidableEq, Repr

/-- Modelled from the spec: the derived Township/Range key of a record
(the sentinel states carry the library's fixed placeholder keys). -/
def TRS.twprge : TRS → String
  | .valid t _ => t
  | .error _ => "XXXzXXXz"
  | .undef => "___z___z"

/-- Modelled from the spec: the section-number text of a record, with
leading zeros collapsed to unpadded digits. -/
def TRS.sec : TRS → String
  | .valid _ s => s
  | .error _ => "XX"
  | .undef => "__"

/-- Modelled from the spec: the stable string form of a record, e.g.
`"154n97w01"` (section zero-padded to two digits). -/
def TRS.trs (t : TRS) : String :=
  t.twprge ++ (if t.sec.length = 1 then "0" ++ t.sec else t.sec)

/-- Modelled from the spec: whether a record is in the error or undefined
sentinel state. -/
def TRS.isErrorOrUndef : TRS → Bool
  | .valid _ _ => false
  | .error _ => true
  | .undef => true

/-- Modelled from the spec: constructing `pytrs.TRS` directly from raw text
after a failed extraction yields the "undefined" sentinel for empty text and
the "error" sentinel carrying the original text otherwise. -/
def TRS.ofText (txt : String) : TRS :=
  if txt = "" then .undef else .error txt

/-- A section designator yielded by a section-key decoder: the presets
produce either strings (Format A) or integers (Formats B and C). -/
inductive SecVal where
  | str (s : String)
  | num (n : Nat)
deriving DecidableEq, Repr

/-- Numeric value of a run of decimal digit characters. -/
def digitsToNat (ds : List Char) : Nat :=
  ds.foldl (fun n c => 10 * n + (c.toNat - '0'.toNat)) 0

/-- Modelled from the spec: normalize one township or range component:
an optional trailing hemisphere letter is lower-cased, the default letter is
applied only when the component has none, and leading zeros are dropped;
a malformed component yields `none`. -/
def normTwpRge (v : String) (defaultLetter : Char) (allowed : List Char) :
    Option String :=
  let ds := v.data.takeWhile Char.isDigit
  let rest := v.data.dropWhile Char.isDigit
  if ds = [] then none
  else
    match rest with
    | [] => some (Nat.repr (digitsToNat ds) ++ defaultLetter.toLower.toString)
    | [c] => if c.toLower ∈ allowed then
               some (Nat.repr (digitsToNat ds) ++ c.toLower.toString)
             else none
    | _ => none

/-- Modelled from the spec: the section text of a designator, with leading
zeros collapsed; a non-numeric string designator yields `none`. -/
def SecVal.text : SecVal → Option String
  | .num n => some (Nat.repr n)
  | .str s =>
    if s ≠ "" ∧ s.data.all Char.isDigit then some (Nat.repr (digitsToNat s.data))
    else none

/-- Modelled from the spec: `pytrs.TRS.from_twprgesec` builds one record
from township, range and section designators.  Hemisphere defaults apply
only when the captured text omits the hemisphere letter; when no default is
supplied the library's master defaults (`n`, `w`) resolve the ambiguity.
A malformed component produces the error sentinel. -/
def fromTwprgesec (twp rge : String) (sec : SecVal)
    (default_ns default_ew : Option Char) : TRS :=
  match normTwpRge twp (default_ns.getD 'n') ['n', 's'],
        normTwpRge rge (default_ew.getD 'w') ['e', 'w'],
        sec.text with
  | some t, some r, some s => .valid (t ++ r) s
  | _, _, _ => .error (twp ++ rge)

/-- Modelled from the spec: `TRSList.filter_errors(drop=True, undef=True)`
removes every record in the error or undefined sentinel state. -/
def filterErrors (l : List TRS) : List TRS :=
  l.filter (fun t => ¬ t.isErrorOrUndef)

/-! ### Python string helpers used by the preset decoders -/

/-- Split at each non-overlapping occurrence of the separator, scanning left
to right (`acc` holds the reversed current token; the fuel is at least the
length of the text, and every step consumes at least one character). -/
def splitOnLAux (s0 : Char) (stail : List Char) :
    Nat → List Char → List Char → List (List Char)
  | _, [], acc => [acc.reverse]
  | 0, s, acc => [acc.reverse ++ s]
  | fuel + 1, c :: rest, acc =>
    if (s0 :: stail).isPrefixOf (c :: rest) then
      acc.reverse :: splitOnLAux s0 stail fuel (rest.drop stail.length) []
    else
      splitOnLAux s0 stail fuel rest (c :: acc)

/-- Model of Python `str.split(sep)` for a non-empty separator. -/
def pySplit (s : String) (sep : String) : List String :=
  match sep.data with
  | [] => [s]
  | c :: rest => (splitOnLAux c rest s.data.length s.data []).map String.mk

/-- Model of Python `int()` on the decimal digit strings produced by the
preset patterns (on other strings `int()` raises, which no exercised input
reaches). -/
def pyInt (s : String) : Nat := digitsToNat s.data

/-! ### The preset format catalogue (`FORMAT_A`, `FORMAT_B`, `FORMAT_C`) -/

/-- Source text of the `FORMAT_A` pattern. -/
def FORMAT_A_pat : String :=
  "(?P<twp>\\d\x7b1,3\x7d[NSns])(?P<rge>\\d\x7b1,3\x7d[EWew]) - (?P<sec_list>(\\d\x7b1,2\x7d(, )?(?!\\d\x7b1,3\x7d[NSns]))+)"

/-- `FORMAT_A` section-key decoder: `lambda sec_list: sec_list.split(', ')`. -/
def FORMAT_A_sec_key (sec_list : String) : List SecVal :=
  (pySplit sec_list ", ").map SecVal.str

/-- Source text of the `FORMAT_B` pattern. -/
def FORMAT_B_pat : String :=
  "(?P<twp>\\d\x7b1,3\x7d)-(?P<rge>\\d\x7b1,3\x7d)-(?P<sec_list>(\\d\x7b1,3\x7d-?)+)"

/-- `FORMAT_B` section-key decoder:
`lambda sec_list: [int(sec) for sec in sec_list.split('-')]`. -/
def FORMAT_B_sec_key (sec_list : String) : List SecVal :=
  (pySplit sec_list "-").map (fun s => SecVal.num (pyInt s))

/-- Source text of the `FORMAT_C` pattern. -/
def FORMAT_C_pat : String :=
  "(?P<sec_list>(\\d\x7b1,3\x7d-?)+)-(?P<twp>\\d\x7b1,3\x7d)-(?P<rge>\\d\x7b1,3\x7d)"

/-- `FORMAT_C` section-key decoder (identical to `FORMAT_B`'s). -/
def FORMAT_C_sec_key (sec_list : String) : List SecVal :=
  (pySplit sec_list "-").map (fun s => SecVal.num (pyInt s))

/-! ### The module's operations -/

/-- A pattern argument: `custom_trs` and `custom_trs_list` accept either a
regex source string or an already compiled pattern. -/
inductive RgxArg where
  | src (s : String)
  | compiled (p : Rx)

/-- Model of `re.compile` on either argument form: compiling an already
compiled pattern returns it unchanged; a malformed source string yields
`none` (Python raises `re.error`). -/
def reCompile : RgxArg → Option Rx
  | .src s => parseRx s
  | .compiled p => some p

/-- Embedding of `custom_trs`: search for the first match of the pattern
anywhere in the text; with no match, return the sentinel built from the raw
text; otherwise build one record from the `twp`, `rge` and `sec` captures.
The result is `none` only when the pattern source fails to compile. -/
def custom_trs (txt : String) (rgx : RgxArg)
    (default_ns default_ew : Option Char) : Option TRS :=
  (reCompile rgx).map fun r =>
    match reSearch r txt.data with
    | none => TRS.ofText txt
    | some mo =>
      fromTwprgesec (capGet mo.caps "twp") (capGet mo.caps "rge")
        (SecVal.str (capGet mo.caps "sec")) default_ns default_ew

/-- Records contributed by one match of the pattern in `custom_trs_list`:
the decoder applies once to the `sec_list` capture and one record is built
per yielded designator (the `new` list comprehension of the source). -/
def newRecords (mo : MatchRes) (sec_key : String → List SecVal)
    (default_ns default_ew : Option Char) : List TRS :=
  (sec_key (capGet mo.caps "sec_list")).map
    (fun sec => fromTwprgesec (capGet mo.caps "twp") (capGet mo.caps "rge")
      sec default_ns default_ew)

/-- Embedding of `custom_trs_list`: compile the pattern, then for each match
of `re.finditer` in turn extend the accumulated list with the records of
that match.  The result is `none` only when the pattern source fails to
compile. -/
def custom_trs_list (txt : String) (rgx : RgxArg)
    (sec_key : String → List SecVal)
    (default_ns default_ew : Option Char) : Option (List TRS) :=
  (reCompile rgx).map fun r =>
    (reFinditer r txt.data).foldl
      (fun trs_list mo => trs_list ++ newRecords mo sec_key default_ns default_ew)
      []

/-- Embedding of `custom_trs_list` with a fallible section-key decoder: a
Python callback may raise, rendered here as `Except`.  The source wraps the
decoder call in no handler, so a failure aborts the loop and propagates. -/
def custom_trs_listE {ε : Type} (txt : String) (rgx : RgxArg)
    (sec_key : String → Except ε (List SecVal))
    (default_ns default_ew : Option Char) : Option (Except ε (List TRS)) :=
  (reCompile rgx).map fun r =>
    (reFinditer r txt.data).foldlM
      (fun trs_list mo =>
        (sec_key (capGet mo.caps "sec_list")).map
          (fun secs => trs_list ++ secs.map
            (fun sec => fromTwprgesec (capGet mo.caps "twp")
              (capGet mo.caps "rge") sec default_ns default_ew)))
      []

/-- First-seen distinct Township/Range keys: the `ordered` accumulation loop
of `trs_list_to_format_a`. -/
def orderedKeys (l : List TRS) : List String :=
  l.foldl
    (fun ordered t =>
      if ordered.contains t.twprge then ordered else ordered ++ [t.twprge])
    []

/-- Modelled from the spec: `TRSList.group(by_attribute='twprge')` groups
the records by Township/Range key preserving list order within each group;
composed with the `twprge_dct` comprehension of the source, the group of key
`k` contributes the section texts of its members. -/
def groupSecs (l : List TRS) (k : String) : List String :=
  (l.filter (fun t => t.twprge == k)).map TRS.sec

/-- The serialization pipeline of `trs_list_to_format_a` after the working
list has been (possibly) filtered: first-seen key order, grouping, per-group
rendering `"{twprge} - {sections}"`, and the final join. -/
def formatCore (trs_list : List TRS)
    (sec_delimiter twprge_delimiter : String) : String :=
  let ordered := orderedKeys trs_list
  let components := ordered.map
    (fun twprge =>
      twprge ++ " - " ++ String.intercalate sec_delimiter (groupSecs trs_list twprge))
  String.intercalate twprge_delimiter components

/-- Embedding of `trs_list_to_format_a` as a function of the value of its
argument (the heap-aware variant below additionally models the working copy
taken by `pytrs.TRSList(trs_list)`). -/
def trs_list_to_format_a (trs_list : List TRS)
    (sec_delimiter twprge_delimiter : String) (discard_errors : Bool) : String :=
  let working := if discard_errors then filterErrors trs_list else trs_list
  formatCore working sec_delimiter twprge_delimiter

/-- A heap of `TRSList` objects, for stating what `trs_list_to_format_a`
mutates: references are indices into the store. -/
structure Store where
  cells : List (List TRS)
deriving DecidableEq, Repr

/-- Dereference a `TRSList` object. -/
def Store.read (s : Store) (r : Nat) : List TRS := s.cells.getD r []

/-- Allocate a fresh `TRSList` object. -/
def Store.alloc (s : Store) (v : List TRS) : Nat × Store :=
  (s.cells.length, ⟨s.cells ++ [v]⟩)

/-- Overwrite an existing `TRSList` object in place. -/
def Store.write (s : Store) (r : Nat) (v : List TRS) : Store :=
  ⟨s.cells.set r v⟩

/-- Heap-aware embedding of `trs_list_to_format_a`: the caller passes a
reference to its collection; `pytrs.TRSList(trs_list)` allocates a fresh
working list from it, and `filter_errors(drop=True, undef=True)` mutates
only that working list. -/
def trs_list_to_format_a_prog (r : Nat)
    (sec_delimiter twprge_delimiter : String) (discard_errors : Bool)
    (st : Store) : String × Store :=
  let a := st.alloc (st.read r)
  let rw := a.1
  let st1 := a.2
  let st2 := if discard_errors then st1.write rw (filterErrors (st1.read rw))
             else st1
  (formatCore (st2.read rw) sec_delimiter twprge_delimiter, st2)

/-- First-seen order of distinct keys, stated the way the spec phrases it:
scan once, keeping each key's first occurrence and dropping later ones. -/
def firstSeen : List String → List String
  | [] => []
  | k :: rest => k :: (firstSeen rest).filter (fun x => x != k)

/-- Round trip of a text through Format A list extraction and serialization
with the default delimiters. -/
def roundTripA (txt : String) : Option String :=
  (custom_trs_list txt (.src FORMAT_A_pat) FORMAT_A_sec_key none none).map
    (fun l => trs_list_to_format_a l ", " ", " false)

/-- The section texts emitted by the serializer, in emission order: per
group in first-seen key order, the group's section texts. -/
def sectionsEmitted (l : List TRS) : List String :=
  ((orderedKeys l).map (groupSecs l)).flatten

/-- The arguments fed to the section-key decoder during a `custom_trs_list`
run: the `sec_list` capture of each match, in match order. -/
def decoderArgs (p : Rx) (txt : String) : List String :=
  (reFinditer p txt.data).map (fun mo => capGet mo.caps "sec_list")

/-! ### Canonical Format A texts

A canonical Format-A-shaped string is the rendering of a non-empty list of
groups, each a Township/Range token in the normalized lower-case form the
record model produces, followed by `" - "` and a comma-joined non-empty
list of one-or-two-digit section tokens; consecutive groups are joined by
`", "` exactly as the serializer does. -/

/-- One Format A group as rendered: township digit run, its hemisphere
letter, range digit run, its hemisphere letter, and the section tokens. -/
structure GroupA where
  twpd : List Char
  ns : Char
  rged : List Char
  ew : Char
  secs : List (List Char)
deriving DecidableEq, Repr

/-- A digit run in canonical form: non-empty, decimal digits only, equal to
the decimal rendering of its own value (so no zero padding). -/
def canonDigits (ds : List Char) : Prop :=
  ds ≠ [] ∧ (∀ c ∈ ds, c.isDigit) ∧ (Nat.repr (digitsToNat ds)).data = ds

instance (ds : List Char) : Decidable (canonDigits ds) := by
  unfold canonDigits; infer_instance

/-- A section token as the Format A pattern accepts it: one or two decimal
digits (zero padding allowed). -/
def secToken (t : List Char) : Prop :=
  t ≠ [] ∧ t.length ≤ 2 ∧ ∀ c ∈ t, c.isDigit

instance (t : List Char) : Decidable (secToken t) := by
  unfold secToken; infer_instance

/-- Canonical shape of one group: one-to-three-digit canonical township and
range runs, lower-case hemisphere letters, and a non-empty section list. -/
def GroupA.Shaped (g : GroupA) : Prop :=
  canonDigits g.twpd ∧ g.twpd.length ≤ 3 ∧ (g.ns = 'n' ∨ g.ns = 's') ∧
  canonDigits g.rged ∧ g.rged.length ≤ 3 ∧ (g.ew = 'e' ∨ g.ew = 'w') ∧
  g.secs ≠ [] ∧ ∀ t ∈ g.secs, secToken t

instance (g : GroupA) : Decidable g.Shaped := by
  unfold GroupA.Shaped; infer_instance

/-- Join character lists with a separator. -/
def joinSep (sep : List Char) : List (List Char) → List Char
  | [] => []
  | [x] => x
  | x :: y :: rest => x ++ sep ++ joinSep sep (y :: rest)

/-- The Township/Range key of a group, as rendered. -/
def GroupA.key (g : GroupA) : List Char :=
  g.twpd ++ [g.ns] ++ g.rged ++ [g.ew]

/-- The rendering of one group: key, `" - "`, comma-joined sections. -/
def GroupA.render (g : GroupA) : List Char :=
  g.key ++ " - ".data ++ joinSep ", ".data g.secs

/-- The rendering of a list of groups, joined by `", "`. -/
def renderA (gs : List GroupA) : List Char :=
  joinSep ", ".data (gs.map GroupA.render)

/-- Collapse the zero padding of each section token of a group. -/
def GroupA.normalize (g : GroupA) : GroupA :=
  ⟨g.twpd, g.ns, g.rged, g.ew,
    g.secs.map (fun t => (Nat.repr (digitsToNat t)).data)⟩

/-- The records Format A list extraction produces on a canonical text: one
valid record per section token, in text order, with zero padding of the
section collapsed by the record constructor. -/
def expectedRecords (gs : List GroupA) : List TRS :=
  (gs.map (fun g =>
    g.secs.map (fun t => TRS.valid (String.mk g.key) (Nat.repr (digitsToNat t))))).flatten

/-- The compiled `FORMAT_A` pattern, written out as a syntax tree (the
theorems below identify it with `parseRx FORMAT_A_pat`).  The single
repeated atom of the `sec_list` group: one or two digits, an optional
`", "`, and a negative lookahead barring a following Township token. -/
def iterA : Rx :=
  .grp none (.seq (.rep 1 (some 2) .digit)
    (.seq (.rep 0 (some 1) (.grp none (.seq (.lit ',') (.seq (.lit ' ') .eps))))
      (.seq (.nla (.seq (.rep 1 (some 3) .digit)
        (.seq (.cls ['N', 'S', 'n', 's']) .eps))) .eps)))

/-- The compiled `FORMAT_A` pattern as a syntax tree. -/
def formatA_rx : Rx :=
  .seq (.grp (some "twp") (.seq (.rep 1 (some 3) .digit)
      (.seq (.cls ['N', 'S', 'n', 's']) .eps)))
    (.seq (.grp (some "rge") (.seq (.rep 1 (some 3) .digit)
        (.seq (.cls ['E', 'W', 'e', 'w']) .eps)))
      (.seq (.lit ' ') (.seq (.lit '-') (.seq (.lit ' ')
        (.seq (.grp (some "sec_list") (.seq (.rep 1 none iterA) .eps)) .eps)))))

/-- The compiled `FORMAT_B` pattern as a syntax tree. -/
def formatB_rx : Rx :=
  .seq (.grp (some "twp") (.seq (.rep 1 (some 3) .digit) .eps))
    (.seq (.lit '-')
      (.seq (.grp (some "rge") (.seq (.rep 1 (some 3) .digit) .eps))
        (.seq (.lit '-')
          (.seq (.grp (some "sec_list") (.seq (.rep 1 none
            (.grp none (.seq (.rep 1 (some 3) .digit)
              (.seq (.rep 0 (some 1) (.lit '-')) .eps)))) .eps)) .eps))))

/-- The decoder-call sequence of a `custom_trs_list` run with a fallible
decoder: one decoder application per match, in match order, stopping at the
first failure; on success each match contributes its record list. -/
def decodeSeq {ε : Type} (key : String → Except ε (List SecVal))
    (g : MatchRes → List SecVal → List TRS) :
    List MatchRes → Except ε (List (List TRS))
  | [] => Except.ok []
  | m :: ms =>
    match key (capGet m.caps "sec_list") with
    | Except.error e => Except.error e
    | Except.ok v =>
      match decodeSeq key g ms with
      | Except.error e => Except.error e
      | Except.ok ls => Except.ok (g m v :: ls)

/-- What may legally follow a group's section list in a canonical Format A
text: nothing, or the `", "` joiner followed by the next group's Township
token (a one-to-three-digit run and a hemisphere letter). -/
def RestOK (rest : List Char) : Prop :=
  rest = [] ∨ ∃ ds c w, rest = ',' :: ' ' :: (ds ++ c :: w) ∧ ds ≠ [] ∧
    ds.length ≤ 3 ∧ (∀ x ∈ ds, x.isDigit) ∧ c ∈ ['N', 'S', 'n', 's']

/-- A string starting with a section token followed by `,` or the end: the
shape at which the `FORMAT_A` negative lookahead must succeed. -/
def SecStart (v : List Char) : Prop :=
  ∃ t w, v = t ++ w ∧ secToken t ∧ (w = [] ∨ ∃ r, w = ',' :: r)

/-! ### Claim theorems -/

/-- C5.  Preset catalogue examples: `custom_trs_list` with each preset
Format Specification on its documented example input yields exactly the
documented record sequence: `FORMAT_A` on `"154n97w - 14, 1, 155n98w - 11"`
yields records equivalent to `["154n97w14", "154n97w01", "155n98w11"]`,
`FORMAT_B` on `"154-097-014-001"` yields `["154n97w14", "154n97w01"]`, and
`FORMAT_C` on `"014-154-097"` yields `["154n97w14"]`. -/
theorem claim_C5_preset_examples :
    (custom_trs_list "154n97w - 14, 1, 155n98w - 11" (.src FORMAT_A_pat)
        FORMAT_A_sec_key none none).map (List.map TRS.trs)
      = some ["154n97w14", "154n97w01", "155n98w11"] ∧
    (custom_trs_list "154-097-014-001" (.src FORMAT_B_pat)
        FORMAT_B_sec_key none none).map (List.map TRS.trs)
      = some ["154n97w14", "154n97w01"] ∧
    (custom_trs_list "014-154-097" (.src FORMAT_C_pat)
        FORMAT_C_sec_key none none).map (List.map TRS.trs)
      = some ["154n97w14"] := by
  decide

/-- C6.  Serializer empty-result semantics: `trs_list_to_format_a` returns
the empty string on an empty input collection, and on a collection holding
only error/undefined sentinel records when `discard_errors` is enabled. -/
theorem claim_C6_empty_serialization :
    ∀ (l : List TRS) (sd td : String) (de : Bool),
      trs_list_to_format_a [] sd td de = "" ∧
      ((∀ t ∈ l, t.isErrorOrUndef = true) → trs_list_to_format_a l sd td true = "") := by
  intro l sd td de
  constructor
  · cases de <;> rfl
  · intro h
    have hf : filterErrors l = [] := by
      simp only [filterErrors, List.filter_eq_nil_iff]
      intro t ht
      simp [h t ht]
    simp [trs_list_to_format_a, hf, formatCore, orderedKeys]
    rfl

/-- Witness for C6 at a concrete error-only collection. -/
theorem claim_C6_empty_serialization_witness :
    trs_list_to_format_a [TRS.error "junk", TRS.undef] ", " ", " true = "" :=
  (claim_C6_empty_serialization [TRS.error "junk", TRS.undef] ", " ", " true).2
    (by decide)

/-- C9.  Pattern-argument equivalence: `custom_trs_list` and `custom_trs`
return the same result whether the pattern is passed as a regex source
string or as the compiled pattern of that same string (both functions
compile their pattern argument before use). -/
theorem claim_C9_pattern_argument_equivalence :
    ∀ (txt s : String) (p : Rx) (key : String → List SecVal)
      (dns dew : Option Char),
      parseRx s = some p →
      custom_trs_list txt (.src s) key dns dew
          = custom_trs_list txt (.compiled p) key dns dew ∧
      custom_trs txt (.src s) dns dew = custom_trs txt (.compiled p) dns dew := by
  intro txt s p key dns dew h
  constructor <;> simp [custom_trs_list, custom_trs, reCompile, h]

/-- Witness for C9 at the `FORMAT_B` pattern and its compiled form. -/
theorem claim_C9_pattern_argument_equivalence_witness :
    custom_trs_list "154-097-014-001" (.src FORMAT_B_pat) FORMAT_B_sec_key none none
        = custom_trs_list "154-097-014-001" (.compiled formatB_rx) FORMAT_B_sec_key none none ∧
    custom_trs "154-097-014-001" (.src FORMAT_B_pat) none none
        = custom_trs "154-097-014-001" (.compiled formatB_rx) none none :=
  claim_C9_pattern_argument_equivalence _ _ _ _ _ _ (by decide)

/-- C2.  No-match behavior: when the pattern has no match in the text,
`custom_trs_list` returns the empty collection (also in the fallible-decoder
embedding, where no exception escapes: the result is `Except.ok []`), and
`custom_trs` returns the undefined sentinel on empty text and the error
sentinel carrying the text otherwise. -/
theorem claim_C2_no_match_behavior :
    ∀ {ε : Type} (txt : String) (rgx : RgxArg) (p : Rx)
      (key : String → List SecVal) (keyE : String → Except ε (List SecVal))
      (dns dew : Option Char),
      reCompile rgx = some p →
      reSearch p txt.data = none →
      custom_trs_list txt rgx key dns dew = some [] ∧
      custom_trs_listE txt rgx keyE dns dew = some (Except.ok []) ∧
      custom_trs txt rgx dns dew
        = some (if txt = "" then TRS.undef else TRS.error txt) := by
  intro ε txt rgx p key keyE dns dew hc hs
  have hs2 : searchAux p (searchFuel txt.data) txt.data 0 = none := hs
  have hfind : reFinditer p txt.data = [] := by
    simp [reFinditer, finditerAux, hs2]
  refine ⟨?_, ?_, ?_⟩
  · simp [custom_trs_list, hc, hfind]
  · simp [custom_trs_listE, hc, hfind]
    rfl
  · simp [custom_trs, hc, hs, TRS.ofText]

/-- Witness for C2 at a concrete non-matching text. -/
theorem claim_C2_no_match_behavior_witness :
    custom_trs_list "hello world" (.src FORMAT_A_pat) FORMAT_A_sec_key none none
        = some [] ∧
    custom_trs_listE "hello world" (.src FORMAT_A_pat)
        (fun s => (Except.ok (FORMAT_A_sec_key s) : Except String (List SecVal)))
        none none
      = some (Except.ok []) ∧
    custom_trs "hello world" (.src FORMAT_A_pat) none none
      = some (if "hello world" = "" then TRS.undef else TRS.error "hello world") :=
  claim_C2_no_match_behavior "hello world" (.src FORMAT_A_pat) formatA_rx
    FORMAT_A_sec_key _ none none (by decide) (by decide)

/-- C8.  Frame property: the heap-aware embedding of `trs_list_to_format_a`
leaves every pre-existing collection unchanged (filtering happens on the
freshly allocated working copy only), and its result is the pure function
of the caller's collection value. -/
theorem claim_C8_no_mutation :
    ∀ (st : Store) (r : Nat) (sd td : String) (de : Bool),
      r < st.cells.length →
      (∀ r2, r2 < st.cells.length →
        ((trs_list_to_format_a_prog r sd td de st).2).read r2 = st.read r2) ∧
      (trs_list_to_format_a_prog r sd td de st).1
        = trs_list_to_format_a (st.read r) sd td de := by
  intro st r sd td de hr
  cases de with
  | false =>
    refine ⟨?_, ?_⟩
    · intro r2 hr2
      simp [trs_list_to_format_a_prog, Store.alloc, Store.read, Store.write]
      rw [List.getElem?_append_left hr2]
    · simp [trs_list_to_format_a_prog, Store.alloc, Store.read, Store.write,
        trs_list_to_format_a, List.getElem?_concat_length]
  | true =>
    refine ⟨?_, ?_⟩
    · intro r2 hr2
      simp [trs_list_to_format_a_prog, Store.alloc, Store.read, Store.write]
      rw [List.getElem?_append_left hr2]
    · simp [trs_list_to_format_a_prog, Store.alloc, Store.read, Store.write,
        trs_list_to_format_a, List.getElem?_concat_length]

/-- Witness for C8 at a concrete two-cell store. -/
theorem claim_C8_no_mutation_witness :
    (∀ r2, r2 < (Store.mk [[TRS.valid "154n97w" "14", TRS.error "x"], []]).cells.length →
      ((trs_list_to_format_a_prog 0 ", " ", " true
          (Store.mk [[TRS.valid "154n97w" "14", TRS.error "x"], []])).2).read r2
        = (Store.mk [[TRS.valid "154n97w" "14", TRS.error "x"], []]).read r2) ∧
    (trs_list_to_format_a_prog 0 ", " ", " true
        (Store.mk [[TRS.valid "154n97w" "14", TRS.error "x"], []])).1
      = trs_list_to_format_a
          ((Store.mk [[TRS.valid "154n97w" "14", TRS.error "x"], []]).read 0)
          ", " ", " true :=
  claim_C8_no_mutation (Store.mk [[TRS.valid "154n97w" "14", TRS.error "x"], []])
    0 ", " ", " true (by decide)

end TrsTools

namespace TrsTools

/-! ### Grouping-order and partition lemmas for the serializer -/

theorem foldl_dedup (ks : List String) : ∀ (acc : List String),
    ks.foldl (fun o k => if o.contains k then o else o ++ [k]) acc
      = acc ++ (firstSeen ks).filter (fun x => !acc.contains x) := by
  induction ks with
  | nil => intro acc; simp [firstSeen]
  | cons k ks ih =>
    intro acc
    simp only [List.foldl_cons, firstSeen]
    by_cases hk : acc.contains k
    · rw [if_pos hk, ih, List.filter_cons]
      have hkf : (!acc.contains k) = false := by
        simp [List.mem_of_elem_eq_true hk]
      rw [hkf]
      simp only [Bool.false_eq_true, if_false, List.filter_filter]
      congr 1
      refine (List.filter_congr ?_).symm
      intro x _
      by_cases hx : x = k
      · subst hx; simp [List.mem_of_elem_eq_true hk]
      · simp [hx]
    · rw [if_neg hk, ih, List.filter_cons]
      have hkf : (!acc.contains k) = true := by simp_all
      rw [hkf]
      simp only [if_true, List.filter_filter, List.append_assoc,
        List.singleton_append]
      congr 2
      refine List.filter_congr ?_
      intro x _
      by_cases hx : x = k
      · subst hx; simp
      · simp [hx]

theorem ordered_eq_firstSeen (l : List TRS) :
    orderedKeys l = firstSeen (l.map TRS.twprge) := by
  have h :
      (l.map TRS.twprge).foldl (fun o k => if o.contains k then o else o ++ [k]) []
        = l.foldl (fun o t => if o.contains t.twprge then o else o ++ [t.twprge]) [] :=
    List.foldl_map _ _ _ _
  have h2 := foldl_dedup (l.map TRS.twprge) []
  rw [h] at h2
  simpa [orderedKeys] using h2

end TrsTools

namespace TrsTools

/-- C4.  Grouping-order: the serializer emits the Township/Range groups in
the order of first occurrence of each distinct key in the (possibly
error-filtered) input collection — the spec-side `firstSeen` scan — not in
a sorted order and not in the grouping structure's own order. -/
theorem claim_C4_grouping_order :
    ∀ (l : List TRS) (sd td : String) (de : Bool),
      trs_list_to_format_a l sd td de
        = String.intercalate td
            ((firstSeen ((if de then filterErrors l else l).map TRS.twprge)).map
              (fun k => k ++ " - " ++ String.intercalate sd
                (groupSecs (if de then filterErrors l else l) k))) := by
  intro l sd td de
  cases de <;> simp [trs_list_to_format_a, formatCore, ordered_eq_firstSeen]

theorem filter_map_twprge (l : List TRS) (key : String) :
    (l.filter (fun x => x.twprge != key)).map TRS.twprge
      = (l.map TRS.twprge).filter (fun s => s != key) := by
  induction l with
  | nil => rfl
  | cons a t ih =>
    by_cases h : a.twprge = key
    · simp [List.filter_cons, h, ih]
    · simp [List.filter_cons, h, ih]

theorem firstSeen_filter (ks : List String) (a : String) :
    firstSeen (ks.filter (fun x => x != a))
      = (firstSeen ks).filter (fun x => x != a) := by
  induction ks with
  | nil => rfl
  | cons k ks ih =>
    by_cases h : k = a
    · subst h
      simp only [List.filter_cons, bne_self_eq_false, Bool.false_eq_true,
        if_false, firstSeen, ih, List.filter_filter]
      refine (List.filter_congr ?_).symm
      intro x _
      by_cases hx : x = k
      · subst hx; simp
      · simp [hx]
    · have hb : (k != a) = true := by simp [h]
      simp only [List.filter_cons, hb, if_true, firstSeen, ih,
        List.filter_filter]
      congr 1
      refine List.filter_congr ?_
      intro x _
      exact Bool.and_comm _ _

theorem groupby_perm : ∀ (n : Nat) (l : List TRS), l.length ≤ n →
    (((firstSeen (l.map TRS.twprge)).map
        (fun k => l.filter (fun t => t.twprge == k))).flatten).Perm l := by
  intro n
  induction n with
  | zero =>
    intro l hl
    have : l = [] := List.length_eq_zero.mp (Nat.le_zero.mp hl)
    subst this
    simp [firstSeen]
  | succ n ih =>
    intro l hl
    match l with
    | [] => simp [firstSeen]
    | a :: t =>
      simp only [List.map_cons, firstSeen, List.flatten_cons]
      have hhead : (a :: t).filter (fun r => r.twprge == a.twprge)
          = a :: t.filter (fun r => r.twprge == a.twprge) := by
        simp [List.filter_cons]
      rw [hhead]
      have hkeys : ∀ k ∈ (firstSeen (t.map TRS.twprge)).filter (fun x => x != a.twprge),
          (a :: t).filter (fun r => r.twprge == k) = t.filter (fun r => r.twprge == k) := by
        intro k hk
        have hne : (k != a.twprge) = true := (List.mem_filter.mp hk).2
        have : (a.twprge == k) = false := by
          simp only [bne_iff_ne, ne_eq] at hne
          simp only [beq_eq_false_iff_ne, ne_eq]
          exact fun h => hne h.symm
        simp [List.filter_cons, this]
      rw [List.map_congr_left hkeys]
      have hmapeq : (t.filter (fun r => r.twprge != a.twprge)).map TRS.twprge
          = (t.map TRS.twprge).filter (fun s => s != a.twprge) :=
        filter_map_twprge t a.twprge
      have hfse : (firstSeen (t.map TRS.twprge)).filter (fun x => x != a.twprge)
          = firstSeen ((t.filter (fun r => r.twprge != a.twprge)).map TRS.twprge) := by
        rw [hmapeq, firstSeen_filter]
      have hsub : ∀ k, (t.filter (fun r => r.twprge != a.twprge)).filter
            (fun r => r.twprge == k)
          = if k = a.twprge then []
            else t.filter (fun r => r.twprge == k) := by
        intro k
        by_cases hk : k = a.twprge
        · subst hk
          rw [if_pos rfl, List.filter_filter, List.filter_eq_nil_iff]
          intro r _
          simp [bne]
        · rw [if_neg hk, List.filter_filter]
          refine List.filter_congr ?_
          intro r _
          by_cases hr : r.twprge = k
          · have hb : (r.twprge != a.twprge) = true := by
              simp only [bne_iff_ne, ne_eq, hr]
              exact hk
            simp only [hr, hb]
            simp [hk]
          · simp [hr]
      have hperm2 := ih (t.filter (fun r => r.twprge != a.twprge))
        (le_trans (List.length_filter_le _ _) (Nat.le_of_succ_le_succ hl))
      have hmc : (firstSeen ((t.filter (fun r => r.twprge != a.twprge)).map TRS.twprge)).map
            (fun k => t.filter (fun r => r.twprge == k))
          = (firstSeen ((t.filter (fun r => r.twprge != a.twprge)).map TRS.twprge)).map
            (fun k => (t.filter (fun r => r.twprge != a.twprge)).filter
              (fun r => r.twprge == k)) := by
        refine (List.map_congr_left ?_).symm
        intro k hk
        rw [hsub k]
        have : k ≠ a.twprge := by
          rw [← hfse] at hk
          have := (List.mem_filter.mp hk).2
          simpa [bne_iff_ne] using this
        rw [if_neg this]
      rw [hfse, hmc]
      refine List.Perm.cons a ?_
      refine List.Perm.trans (List.Perm.append_left _ hperm2) ?_
      have := List.filter_append_perm (fun r : TRS => r.twprge == a.twprge) t
      simpa [bne] using this

theorem sectionsEmitted_eq (l : List TRS) :
    sectionsEmitted l
      = (((firstSeen (l.map TRS.twprge)).map
          (fun k => l.filter (fun t => t.twprge == k))).flatten).map TRS.sec := by
  simp only [sectionsEmitted, groupSecs, ordered_eq_firstSeen,
    List.map_flatten, List.map_map]
  rfl

/-- C10.  Serialization is record-count preserving: the group emission of
the serializer partitions the (possibly error-filtered) working collection,
so the emitted section texts are a permutation of the working collection's
section texts — no record dropped, none emitted twice, duplicates kept —
and in particular their number equals the number of working records. -/
theorem claim_C10_count_preserving :
    ∀ (l : List TRS) (sd td : String) (de : Bool),
      trs_list_to_format_a l sd td de
        = String.intercalate td
            ((orderedKeys (if de then filterErrors l else l)).map
              (fun k => k ++ " - " ++ String.intercalate sd
                (groupSecs (if de then filterErrors l else l) k))) ∧
      (sectionsEmitted (if de then filterErrors l else l)).Perm
        ((if de then filterErrors l else l).map TRS.sec) ∧
      (sectionsEmitted (if de then filterErrors l else l)).length
        = (if de then filterErrors l else l).length := by
  intro l sd td de
  have hperm : (sectionsEmitted (if de then filterErrors l else l)).Perm
      ((if de then filterErrors l else l).map TRS.sec) := by
    rw [sectionsEmitted_eq]
    exact List.Perm.map TRS.sec (groupby_perm _ _ le_rfl)
  refine ⟨?_, hperm, ?_⟩
  · cases de <;> rfl
  · have := hperm.length_eq
    simpa using this

end TrsTools

namespace TrsTools

/-! ### Structure of `finditer` runs -/

theorem searchAux_bounds (r : Rx) (f : Nat) : ∀ (s : List Char) (pos : Nat)
    (m : MatchRes), searchAux r f s pos = some m → pos ≤ m.ms ∧ m.ms ≤ m.me := by
  intro s
  induction s with
  | nil =>
    intro pos m h
    rw [searchAux] at h
    cases hmr : matchRx f r [] [] (fun caps s1 => some (caps, s1)) with
    | some v =>
      rw [hmr] at h
      cases v with
      | mk caps s1 =>
        simp only [Option.some_inj] at h
        subst h
        simp
    | none => rw [hmr] at h; simp at h
  | cons c t ih =>
    intro pos m h
    rw [searchAux] at h
    cases hmr : matchRx f r (c :: t) [] (fun caps s1 => some (caps, s1)) with
    | some v =>
      rw [hmr] at h
      cases v with
      | mk caps s1 =>
        simp only [Option.some_inj] at h
        subst h
        simp
    | none =>
      rw [hmr] at h
      have := ih (pos + 1) m h
      exact ⟨by omega, this.2⟩

theorem finditerAux_inv (r : Rx) (mf : Nat) : ∀ (fuel : Nat) (s : List Char)
    (pos : Nat),
    (∀ m ∈ finditerAux r mf fuel s pos, pos ≤ m.ms ∧ m.ms ≤ m.me) ∧
    List.Chain' (fun m1 m2 => m1.me ≤ m2.ms) (finditerAux r mf fuel s pos) := by
  intro fuel
  induction fuel with
  | zero => intro s pos; simp [finditerAux]
  | succ fuel ih =>
    intro s pos
    rw [finditerAux]
    cases hs : searchAux r mf s pos with
    | none => simp
    | some m =>
      have hb := searchAux_bounds r mf s pos m hs
      simp only []
      by_cases hcut : s.length < (if m.ms < m.me then m.me - pos else m.me + 1 - pos)
      · rw [if_pos hcut]
        constructor
        · intro m2 hm2
          simp only [List.mem_singleton] at hm2
          subst hm2
          exact hb
        · simp
      · rw [if_neg hcut]
        have hge : m.me ≤ pos + (if m.ms < m.me then m.me - pos else m.me + 1 - pos) := by
          by_cases hlt : m.ms < m.me
          · rw [if_pos hlt]; omega
          · rw [if_neg hlt]; omega
        obtain ⟨ihall, ihchain⟩ :=
          ih (s.drop (if m.ms < m.me then m.me - pos else m.me + 1 - pos))
            (pos + (if m.ms < m.me then m.me - pos else m.me + 1 - pos))
        constructor
        · intro m2 hm2
          rcases List.mem_cons.mp hm2 with h2 | h2
          · subst h2; exact hb
          · have := ihall m2 h2
            exact ⟨by omega, this.2⟩
        · rw [List.chain'_cons']
          refine ⟨?_, ihchain⟩
          intro y hy
          have hym := List.mem_of_mem_head? hy
          exact le_trans hge (ihall y hym).1

theorem foldl_append_eq_flatten {α β : Type} (f : α → List β) :
    ∀ (ms : List α) (acc : List β),
      ms.foldl (fun acc mo => acc ++ f mo) acc = acc ++ (ms.map f).flatten := by
  intro ms
  induction ms with
  | nil => intro acc; simp
  | cons m ms ih => intro acc; simp [ih]

/-- C3.  List-extraction semantics: `custom_trs_list` is the concatenation,
over all non-overlapping matches in left-to-right text order (consecutive
match spans are ordered and disjoint), of one record per decoder-yielded
section designator in decoder order; the record count is the sum of the
decoder-output lengths (so duplicates are preserved and an empty decode
contributes zero records without error). -/
theorem claim_C3_list_extraction_semantics :
    ∀ (txt : String) (p : Rx) (key : String → List SecVal)
      (dns dew : Option Char),
      custom_trs_list txt (.compiled p) key dns dew
          = some ((reFinditer p txt.data).map
              (fun mo => newRecords mo key dns dew)).flatten ∧
      List.Chain' (fun m1 m2 => m1.me ≤ m2.ms) (reFinditer p txt.data) ∧
      (∀ mo ∈ reFinditer p txt.data, mo.ms ≤ mo.me) ∧
      (((reFinditer p txt.data).map
          (fun mo => newRecords mo key dns dew)).flatten).length
        = ((reFinditer p txt.data).map
            (fun mo => (key (capGet mo.caps "sec_list")).length)).sum := by
  intro txt p key dns dew
  refine ⟨?_, ?_, ?_, ?_⟩
  · simp [custom_trs_list, reCompile, foldl_append_eq_flatten]
  · exact (finditerAux_inv p (searchFuel txt.data) (txt.data.length + 1)
      txt.data 0).2
  · intro mo hmo
    exact ((finditerAux_inv p (searchFuel txt.data) (txt.data.length + 1)
      txt.data 0).1 mo hmo).2
  · rw [List.length_flatten, List.map_map]
    congr 1
    refine List.map_congr_left ?_
    intro mo _
    simp [newRecords]

end TrsTools


namespace TrsTools

/-! ### Fallible-decoder runs -/

theorem foldlME_decodeSeq {ε : Type} (key : String → Except ε (List SecVal))
    (g : MatchRes → List SecVal → List TRS) :
    ∀ (ms : List MatchRes) (acc : List TRS),
      ms.foldlM (fun acc mo => (key (capGet mo.caps "sec_list")).map
          (fun secs => acc ++ g mo secs)) acc
        = (decodeSeq key g ms).map (fun ls => acc ++ ls.flatten) := by
  intro ms
  induction ms with
  | nil =>
    intro acc
    rw [List.foldlM_nil]
    simp [decodeSeq, Except.map]
    rfl
  | cons m ms ih =>
    intro acc
    rw [List.foldlM_cons]
    cases hk : key (capGet m.caps "sec_list") with
    | error e =>
      simp only [decodeSeq, hk]
      rfl
    | ok v =>
      simp only [decodeSeq, hk]
      show List.foldlM _ (acc ++ g m v) ms = _
      rw [ih]
      cases hds : decodeSeq key g ms with
      | error e => rfl
      | ok ls =>
        show Except.ok (acc ++ g m v ++ ls.flatten)
          = Except.ok (acc ++ (g m v ++ ls.flatten))
        rw [List.append_assoc]

theorem decodeSeq_all_ok {ε : Type} (keyP : String → List SecVal)
    (g : MatchRes → List SecVal → List TRS) :
    ∀ (ms : List MatchRes),
      decodeSeq (fun s => (Except.ok (keyP s) : Except ε (List SecVal))) g ms
        = Except.ok (ms.map (fun mo => g mo (keyP (capGet mo.caps "sec_list")))) := by
  intro ms
  induction ms with
  | nil => rfl
  | cons m ms ih => simp only [decodeSeq, ih, List.map_cons]

theorem decodeSeq_error_of_split {ε : Type}
    (key : String → Except ε (List SecVal))
    (g : MatchRes → List SecVal → List TRS) (e : ε) :
    ∀ (ms : List MatchRes) (pre : List String) (arg : String)
      (post : List String),
      ms.map (fun mo => capGet mo.caps "sec_list") = pre ++ arg :: post →
      (∀ a ∈ pre, ∃ v, key a = Except.ok v) →
      key arg = Except.error e →
      decodeSeq key g ms = Except.error e := by
  intro ms
  induction ms with
  | nil =>
    intro pre arg post hsplit _ _
    cases pre <;> simp at hsplit
  | cons m ms ih =>
    intro pre arg post hsplit hok herr
    cases pre with
    | nil =>
      simp only [List.map_cons, List.nil_append, List.cons.injEq] at hsplit
      rw [← hsplit.1] at herr
      simp only [decodeSeq, herr]
    | cons p0 pre2 =>
      simp only [List.map_cons, List.cons_append, List.cons.injEq] at hsplit
      obtain ⟨v, hv⟩ := hok p0 (List.mem_cons_self _ _)
      rw [← hsplit.1] at hv
      have hrec := ih pre2 arg post hsplit.2
        (fun a ha => hok a (List.mem_cons_of_mem _ ha)) herr
      simp only [decodeSeq, hv, hrec]

/-- C7.  Decoder failure propagation: the fallible-decoder embedding of
`custom_trs_list` agrees with the pure embedding when the decoder never
raises; its run is exactly one decoder application per match, in match order
(the `decodeSeq` call sequence); and when the decoder succeeds on every
earlier match and raises on some match, that failure propagates to the
caller uncaught — the core performs no validation or recovery. -/
theorem claim_C7_decoder_failure_propagation :
    ∀ {ε : Type} (txt : String) (p : Rx)
      (key : String → Except ε (List SecVal)) (keyP : String → List SecVal)
      (dns dew : Option Char),
      custom_trs_listE txt (.compiled p)
          (fun s => (Except.ok (keyP s) : Except ε (List SecVal))) dns dew
        = (custom_trs_list txt (.compiled p) keyP dns dew).map Except.ok ∧
      custom_trs_listE txt (.compiled p) key dns dew
        = some ((decodeSeq key
            (fun mo secs => secs.map (fun sec =>
              fromTwprgesec (capGet mo.caps "twp") (capGet mo.caps "rge")
                sec dns dew)) (reFinditer p txt.data)).map List.flatten) ∧
      (∀ (e : ε) (pre : List String) (arg : String) (post : List String),
        decoderArgs p txt = pre ++ arg :: post →
        (∀ a ∈ pre, ∃ v, key a = Except.ok v) →
        key arg = Except.error e →
        custom_trs_listE txt (.compiled p) key dns dew
          = some (Except.error e)) := by
  intro ε txt p key keyP dns dew
  have hchar : ∀ (k2 : String → Except ε (List SecVal)),
      custom_trs_listE txt (.compiled p) k2 dns dew
        = some ((decodeSeq k2
            (fun mo secs => secs.map (fun sec =>
              fromTwprgesec (capGet mo.caps "twp") (capGet mo.caps "rge")
                sec dns dew)) (reFinditer p txt.data)).map List.flatten) := by
    intro k2
    simp only [custom_trs_listE, reCompile, Option.map_some']
    rw [foldlME_decodeSeq k2
      (fun mo secs => secs.map (fun sec =>
        fromTwprgesec (capGet mo.caps "twp") (capGet mo.caps "rge") sec dns dew))]
    cases hds : decodeSeq k2
        (fun mo secs => secs.map (fun sec =>
          fromTwprgesec (capGet mo.caps "twp") (capGet mo.caps "rge") sec dns dew))
        (reFinditer p txt.data) with
    | error e => rfl
    | ok ls =>
      show some (Except.ok ([] ++ ls.flatten)) = some (Except.ok ls.flatten)
      rw [List.nil_append]
  refine ⟨?_, hchar key, ?_⟩
  · rw [hchar, decodeSeq_all_ok]
    simp only [custom_trs_list, reCompile, Option.map_some']
    rw [foldl_append_eq_flatten
      (fun mo => newRecords mo keyP dns dew) (reFinditer p txt.data) []]
    simp only [List.nil_append, newRecords]
    rfl
  · intro e pre arg post hsplit hok herr
    rw [hchar, decodeSeq_error_of_split key _ e (reFinditer p txt.data)
      pre arg post hsplit hok herr]
    rfl

/-- Witness for C7: a decoder raising on the second match's capture aborts
the run with that failure propagated. -/
theorem claim_C7_decoder_failure_propagation_witness :
    custom_trs_listE "154n97w - 14, 1, 155n98w - 11" (.compiled formatA_rx)
        (fun s => if s = "11" then (Except.error "boom" : Except String (List SecVal))
                  else Except.ok (FORMAT_A_sec_key s)) none none
      = some (Except.error "boom") :=
  (claim_C7_decoder_failure_propagation "154n97w - 14, 1, 155n98w - 11"
      formatA_rx
      (fun s => if s = "11" then (Except.error "boom" : Except String (List SecVal))
                else Except.ok (FORMAT_A_sec_key s))
      FORMAT_A_sec_key none none).2.2
    "boom" ["14, 1"] "11" [] (by decide)
    (by
      intro a ha
      simp only [List.mem_singleton] at ha
      subst ha
      exact ⟨FORMAT_A_sec_key "14, 1", rfl⟩)
    rfl

end TrsTools

namespace TrsTools

/-! ### Unfolding lemmas for the matcher -/

theorem mstep_eps (next) (s : List Char) (caps : Caps) (k) :
    matchStep next .eps s caps k = k caps s := rfl

theorem mstep_lit_pos (next) (c : Char) (s : List Char) (caps : Caps) (k) :
    matchStep next (.lit c) (c :: s) caps k = k caps s := by
  simp [matchStep]

theorem mstep_lit_neg (next) (c c0 : Char) (s : List Char) (caps : Caps) (k)
    (h : c0 ≠ c) : matchStep next (.lit c) (c0 :: s) caps k = none := by
  simp [matchStep, h]

theorem mstep_lit_nil (next) (c : Char) (caps : Caps) (k) :
    matchStep next (.lit c) [] caps k = none := rfl

theorem mstep_digit_pos (next) (c0 : Char) (s : List Char) (caps : Caps) (k)
    (h : c0.isDigit) : matchStep next .digit (c0 :: s) caps k = k caps s := by
  simp [matchStep, h]

theorem mstep_digit_neg (next) (c0 : Char) (s : List Char) (caps : Caps) (k)
    (h : ¬c0.isDigit) : matchStep next .digit (c0 :: s) caps k = none := by
  simp [matchStep, h]

theorem mstep_digit_nil (next) (caps : Caps) (k) :
    matchStep next .digit [] caps k = none := rfl

theorem mstep_cls_pos (next) (cs : List Char) (c0 : Char) (s : List Char)
    (caps : Caps) (k) (h : c0 ∈ cs) :
    matchStep next (.cls cs) (c0 :: s) caps k = k caps s := by
  simp [matchStep, h]

theorem mstep_cls_neg (next) (cs : List Char) (c0 : Char) (s : List Char)
    (caps : Caps) (k) (h : c0 ∉ cs) :
    matchStep next (.cls cs) (c0 :: s) caps k = none := by
  simp [matchStep, h]

theorem mstep_cls_nil (next) (cs : List Char) (caps : Caps) (k) :
    matchStep next (.cls cs) [] caps k = none := rfl

theorem mstep_seq (next) (a b : Rx) (s : List Char) (caps : Caps) (k) :
    matchStep next (.seq a b) s caps k
      = matchStep next a s caps (fun c1 s1 => matchStep next b s1 c1 k) := rfl

theorem mstep_grp (next) (nm : String) (r : Rx) (s : List Char) (caps : Caps) (k) :
    matchStep next (.grp (some nm) r) s caps k
      = matchStep next r s caps (fun c1 s1 =>
          k (capSet c1 nm (String.mk (s.take (s.length - s1.length)))) s1) := rfl

theorem mstep_grpn (next) (r : Rx) (s : List Char) (caps : Caps) (k) :
    matchStep next (.grp none r) s caps k
      = matchStep next r s caps (fun c1 s1 => k c1 s1) := rfl

theorem mstep_nla_of_none (next) (r : Rx) (s : List Char) (caps : Caps) (k)
    (h : matchStep next r s caps (fun c1 s1 => some (c1, s1)) = none) :
    matchStep next (.nla r) s caps k = k caps s := by
  simp only [matchStep, h]

theorem mstep_nla_of_some (next) (r : Rx) (s : List Char) (caps : Caps) (k)
    (res) (h : matchStep next r s caps (fun c1 s1 => some (c1, s1)) = some res) :
    matchStep next (.nla r) s caps k = none := by
  simp only [matchStep, h]

theorem mstep_rep1 (next) (lo : Nat) (hi : Option Nat) (r : Rx) (s : List Char)
    (caps : Caps) (k) :
    matchStep next (.rep (lo + 1) hi r) s caps k
      = matchStep next r s caps
          (fun c1 s1 => next (.rep lo (hiDec hi) r) s1 c1 k) := rfl

theorem mstep_rep0 (next) (hi : Option Nat) (r : Rx) (s : List Char)
    (caps : Caps) (k) (hne : hi ≠ some 0) :
    matchStep next (.rep 0 hi r) s caps k
      = match matchStep next r s caps
            (fun c1 s1 => next (.rep 0 (hiDec hi) r) s1 c1 k) with
        | some res => some res
        | none => k caps s := by
  simp only [matchStep, hne, if_false]

theorem mstep_rep0_zero (next) (r : Rx) (s : List Char) (caps : Caps) (k) :
    matchStep next (.rep 0 (some 0) r) s caps k = k caps s := by
  simp [matchStep]

theorem matchRx_succ (f : Nat) : matchRx (f + 1) = matchStep (matchRx f) := rfl

/-! ### Digit-run lemmas -/

theorem repDigitRun0 : ∀ (ds : List Char) (F hi : Nat) (s2 : List Char)
    (caps : Caps) (k : Caps → List Char → Option (Caps × List Char)),
    ds.length ≤ hi → (∀ c ∈ ds, c.isDigit) →
    (∀ c, s2.head? = some c → ¬c.isDigit) →
    ds.length + 1 ≤ F →
    (∀ j, j < ds.length → k caps (ds.drop j ++ s2) = none) →
    matchRx F (.rep 0 (some hi) .digit) (ds ++ s2) caps k = k caps s2 := by
  intro ds
  induction ds with
  | nil =>
    intro F hi s2 caps k _ _ hnd hF _
    obtain ⟨F2, rfl⟩ : ∃ F2, F = F2 + 1 := ⟨F - 1, by omega⟩
    rw [matchRx_succ]
    by_cases h0 : hi = 0
    · subst h0; exact mstep_rep0_zero _ _ _ _ _
    · rw [mstep_rep0 _ _ _ _ _ _ (by simp [h0])]
      cases s2 with
      | nil => rw [List.nil_append, mstep_digit_nil]
      | cons c0 t =>
        rw [List.nil_append, mstep_digit_neg _ _ _ _ _ (hnd c0 rfl)]
  | cons d0 ds ih =>
    intro F hi s2 caps k hhi hdig hnd hF hk
    obtain ⟨F2, rfl⟩ : ∃ F2, F = F2 + 1 := ⟨F - 1, by omega⟩
    rw [matchRx_succ]
    rw [mstep_rep0 _ _ _ _ _ _ (by simp at hhi ⊢; omega)]
    rw [List.cons_append,
      mstep_digit_pos _ _ _ _ _ (hdig d0 (List.mem_cons_self _ _))]
    have hrec := ih F2 (hi - 1) s2 caps k (by simp at hhi; omega)
      (fun c hc => hdig c (List.mem_cons_of_mem _ hc)) hnd (by simp at hF; omega)
      (fun j hj => by
        have := hk (j + 1) (by simp; omega)
        simpa using this)
    simp only [hiDec] at hrec ⊢
    rw [hrec]
    cases hres : k caps s2 with
    | some v => rfl
    | none =>
      have := hk 0 (by simp)
      simp only [List.drop_zero] at this
      exact this

theorem repDigitRun1 : ∀ (ds : List Char) (F hi : Nat) (s2 : List Char)
    (caps : Caps) (k : Caps → List Char → Option (Caps × List Char)),
    ds ≠ [] → ds.length ≤ hi → (∀ c ∈ ds, c.isDigit) →
    (∀ c, s2.head? = some c → ¬c.isDigit) →
    ds.length ≤ F →
    (∀ j, 1 ≤ j → j < ds.length → k caps (ds.drop j ++ s2) = none) →
    matchStep (matchRx F) (.rep 1 (some hi) .digit) (ds ++ s2) caps k
      = k caps s2 := by
  intro ds F hi s2 caps k hne hhi hdig hnd hF hk
  match ds with
  | d0 :: ds2 =>
    rw [mstep_rep1, List.cons_append,
      mstep_digit_pos _ _ _ _ _ (hdig d0 (List.mem_cons_self _ _))]
    have hrec := repDigitRun0 ds2 F (hi - 1) s2 caps k (by simp at hhi; omega)
      (fun c hc => hdig c (List.mem_cons_of_mem _ hc)) hnd (by simp at hF; omega)
      (fun j hj => by
        have := hk (j + 1) (by omega) (by simp; omega)
        simpa using this)
    simpa only [hiDec] using hrec

end TrsTools

namespace TrsTools

/-! ### Township/Range atom lemmas -/

theorem letters_not_digit :
    ∀ c ∈ (['N', 'S', 'n', 's'] : List Char), ¬c.isDigit := by
  intro c hc
  fin_cases hc <;> decide

theorem lettersEW_not_digit :
    ∀ c ∈ (['E', 'W', 'e', 'w'] : List Char), ¬c.isDigit := by
  intro c hc
  fin_cases hc <;> decide

theorem twpBody (F : Nat) (letters ds : List Char) (c : Char) (s2 : List Char)
    (caps : Caps) (k : Caps → List Char → Option (Caps × List Char))
    (hne : ds ≠ []) (hlen : ds.length ≤ 3) (hdig : ∀ x ∈ ds, x.isDigit)
    (hc : c ∈ letters) (hlet : ∀ x ∈ letters, ¬x.isDigit) (hF : 3 ≤ F) :
    matchStep (matchRx F)
        (.seq (.rep 1 (some 3) .digit) (.seq (.cls letters) .eps))
        (ds ++ c :: s2) caps k = k caps s2 := by
  rw [mstep_seq]
  have key := repDigitRun1 ds F 3 (c :: s2) caps
    (fun c1 s1 => matchStep (matchRx F) (.seq (.cls letters) .eps) s1 c1 k)
    hne hlen hdig
    (fun x hx => by
      simp only [List.head?_cons, Option.some_inj] at hx
      subst hx
      exact hlet c hc)
    (le_trans hlen hF)
    (fun j hj1 hj2 => by
      obtain ⟨d, t, hdt⟩ : ∃ d t, ds.drop j = d :: t := by
        cases hdp : ds.drop j with
        | nil =>
          exfalso
          have := List.drop_eq_nil_iff.mp hdp
          omega
        | cons d t => exact ⟨d, t, rfl⟩
      simp only [hdt, List.cons_append]
      rw [mstep_seq, mstep_cls_neg]
      intro hmem
      exact hlet d hmem (hdig d (List.mem_of_mem_drop (hdt ▸ List.mem_cons_self d t))))
  rw [key]
  simp only []
  rw [mstep_seq, mstep_cls_pos _ _ _ _ _ _ hc, mstep_eps]

theorem twpAtom (F : Nat) (nm : String) (letters ds : List Char) (c : Char)
    (s2 : List Char) (caps : Caps)
    (k : Caps → List Char → Option (Caps × List Char))
    (hne : ds ≠ []) (hlen : ds.length ≤ 3) (hdig : ∀ x ∈ ds, x.isDigit)
    (hc : c ∈ letters) (hlet : ∀ x ∈ letters, ¬x.isDigit) (hF : 3 ≤ F) :
    matchStep (matchRx F)
        (.grp (some nm) (.seq (.rep 1 (some 3) .digit) (.seq (.cls letters) .eps)))
        (ds ++ c :: s2) caps k
      = k (capSet caps nm (String.mk (ds ++ [c]))) s2 := by
  rw [mstep_grp]
  rw [twpBody F letters ds c s2 caps _ hne hlen hdig hc hlet hF]
  have htake : (ds ++ c :: s2).take ((ds ++ c :: s2).length - s2.length)
      = ds ++ [c] := by
    rw [List.append_cons]
    have h1 : (ds ++ [c] ++ s2).length - s2.length = (ds ++ [c]).length := by
      simp
      omega
    rw [h1, List.take_left]
  rw [htake]

theorem formatA_fail_first (F : Nat) (c : Char) (s : List Char) (caps : Caps)
    (k : Caps → List Char → Option (Caps × List Char)) (h : ¬c.isDigit) :
    matchStep (matchRx F) formatA_rx (c :: s) caps k = none := by
  show matchStep (matchRx F)
    (.seq (.grp (some "twp") (.seq (.rep 1 (some 3) .digit)
        (.seq (.cls ['N', 'S', 'n', 's']) .eps))) _) (c :: s) caps k = none
  rw [mstep_seq, mstep_grp, mstep_seq, mstep_rep1,
    mstep_digit_neg _ _ _ _ _ h]

theorem formatA_fail_nil (F : Nat) (caps : Caps)
    (k : Caps → List Char → Option (Caps × List Char)) :
    matchStep (matchRx F) formatA_rx [] caps k = none := by
  show matchStep (matchRx F)
    (.seq (.grp (some "twp") (.seq (.rep 1 (some 3) .digit)
        (.seq (.cls ['N', 'S', 'n', 's']) .eps))) _) [] caps k = none
  rw [mstep_seq, mstep_grp, mstep_seq, mstep_rep1, mstep_digit_nil]

end TrsTools

namespace TrsTools

/-! ### Digit-run lemmas, succeeding-continuation variants -/

theorem repDigitRun0s : ∀ (ds : List Char) (F hi : Nat) (s2 : List Char)
    (caps : Caps) (k : Caps → List Char → Option (Caps × List Char)),
    ds.length ≤ hi → (∀ c ∈ ds, c.isDigit) →
    (∀ c, s2.head? = some c → ¬c.isDigit) →
    ds.length + 1 ≤ F →
    (k caps s2).isSome →
    matchRx F (.rep 0 (some hi) .digit) (ds ++ s2) caps k = k caps s2 := by
  intro ds
  induction ds with
  | nil =>
    intro F hi s2 caps k _ _ hnd hF _
    obtain ⟨F2, rfl⟩ : ∃ F2, F = F2 + 1 := ⟨F - 1, by omega⟩
    rw [matchRx_succ]
    by_cases h0 : hi = 0
    · subst h0; exact mstep_rep0_zero _ _ _ _ _
    · rw [mstep_rep0 _ _ _ _ _ _ (by simp [h0])]
      cases s2 with
      | nil => rw [List.nil_append, mstep_digit_nil]
      | cons c0 t =>
        rw [List.nil_append, mstep_digit_neg _ _ _ _ _ (hnd c0 rfl)]
  | cons d0 ds ih =>
    intro F hi s2 caps k hhi hdig hnd hF hks
    obtain ⟨F2, rfl⟩ : ∃ F2, F = F2 + 1 := ⟨F - 1, by omega⟩
    rw [matchRx_succ]
    rw [mstep_rep0 _ _ _ _ _ _ (by simp at hhi ⊢; omega)]
    rw [List.cons_append,
      mstep_digit_pos _ _ _ _ _ (hdig d0 (List.mem_cons_self _ _))]
    have hrec := ih F2 (hi - 1) s2 caps k (by simp at hhi; omega)
      (fun c hc => hdig c (List.mem_cons_of_mem _ hc)) hnd (by simp at hF; omega)
      hks
    simp only [hiDec] at hrec ⊢
    rw [hrec]
    obtain ⟨v, hv⟩ := Option.isSome_iff_exists.mp hks
    rw [hv]

theorem repDigitRun1s (ds : List Char) (F hi : Nat) (s2 : List Char)
    (caps : Caps) (k : Caps → List Char → Option (Caps × List Char))
    (hne : ds ≠ []) (hhi : ds.length ≤ hi) (hdig : ∀ c ∈ ds, c.isDigit)
    (hnd : ∀ c, s2.head? = some c → ¬c.isDigit) (hF : ds.length ≤ F)
    (hks : (k caps s2).isSome) :
    matchStep (matchRx F) (.rep 1 (some hi) .digit) (ds ++ s2) caps k
      = k caps s2 := by
  match ds with
  | d0 :: ds2 =>
    rw [mstep_rep1, List.cons_append,
      mstep_digit_pos _ _ _ _ _ (hdig d0 (List.mem_cons_self _ _))]
    have hrec := repDigitRun0s ds2 F (hi - 1) s2 caps k (by simp at hhi; omega)
      (fun c hc => hdig c (List.mem_cons_of_mem _ hc)) hnd (by simp at hF; omega)
      hks
    simpa only [hiDec] using hrec

/-! ### Negative-lookahead lemmas for the Township token -/

theorem nla_fail_twp (F : Nat) (ds : List Char) (c : Char) (w : List Char)
    (caps : Caps) (k : Caps → List Char → Option (Caps × List Char))
    (hne : ds ≠ []) (hlen : ds.length ≤ 3) (hdig : ∀ x ∈ ds, x.isDigit)
    (hc : c ∈ (['N', 'S', 'n', 's'] : List Char)) (hF : 3 ≤ F) :
    matchStep (matchRx F)
        (.nla (.seq (.rep 1 (some 3) .digit)
          (.seq (.cls ['N', 'S', 'n', 's']) .eps)))
        (ds ++ c :: w) caps k = none := by
  refine mstep_nla_of_some _ _ _ _ _ (caps, w) ?_
  rw [twpBody F _ ds c w caps _ hne hlen hdig hc letters_not_digit hF]

theorem nla_ok_sec (F : Nat) (t w : List Char) (caps : Caps)
    (k : Caps → List Char → Option (Caps × List Char))
    (ht : secToken t) (hw : w = [] ∨ ∃ r, w = ',' :: r) (hF : 3 ≤ F) :
    matchStep (matchRx F)
        (.nla (.seq (.rep 1 (some 3) .digit)
          (.seq (.cls ['N', 'S', 'n', 's']) .eps)))
        (t ++ w) caps k = k caps (t ++ w) := by
  obtain ⟨htne, htlen, htdig⟩ := ht
  refine mstep_nla_of_none _ _ _ _ _ ?_
  rw [mstep_seq]
  have key := repDigitRun1 t F 3 w caps
    (fun c1 s1 => matchStep (matchRx F)
      (.seq (.cls ['N', 'S', 'n', 's']) .eps) s1 c1
      (fun c2 s2 => some (c2, s2)))
    htne (by omega) htdig
    (fun x hx => by
      rcases hw with h | ⟨r, h⟩ <;> subst h
      · simp at hx
      · simp only [List.head?_cons, Option.some_inj] at hx
        subst hx
        decide)
    (by omega)
    (fun j hj1 hj2 => by
      obtain ⟨d, tl, hdt⟩ : ∃ d tl, t.drop j = d :: tl := by
        cases hdp : t.drop j with
        | nil =>
          exfalso
          have := List.drop_eq_nil_iff.mp hdp
          omega
        | cons d tl => exact ⟨d, tl, rfl⟩
      simp only [hdt, List.cons_append]
      rw [mstep_seq, mstep_cls_neg]
      intro hmem
      exact letters_not_digit d hmem
        (htdig d (List.mem_of_mem_drop (hdt ▸ List.mem_cons_self d tl))))
  rw [key]
  simp only []
  rcases hw with h | ⟨r, h⟩ <;> subst h
  · rw [mstep_seq, mstep_cls_nil]
  · rw [mstep_seq, mstep_cls_neg _ _ _ _ _ _ (by decide)]

theorem nla_ok_comma (F : Nat) (r : List Char) (caps : Caps)
    (k : Caps → List Char → Option (Caps × List Char)) :
    matchStep (matchRx F)
        (.nla (.seq (.rep 1 (some 3) .digit)
          (.seq (.cls ['N', 'S', 'n', 's']) .eps)))
        (',' :: r) caps k = k caps (',' :: r) := by
  refine mstep_nla_of_none _ _ _ _ _ ?_
  rw [mstep_seq, mstep_rep1, mstep_digit_neg _ _ _ _ _ (by decide)]

theorem nla_ok_nil (F : Nat) (caps : Caps)
    (k : Caps → List Char → Option (Caps × List Char)) :
    matchStep (matchRx F)
        (.nla (.seq (.rep 1 (some 3) .digit)
          (.seq (.cls ['N', 'S', 'n', 's']) .eps)))
        [] caps k = k caps [] := by
  refine mstep_nla_of_none _ _ _ _ _ ?_
  rw [mstep_seq, mstep_rep1, mstep_digit_nil]

end TrsTools

namespace TrsTools

/-! ### Optional separator and section-atom lemmas -/

theorem rep01_comma (F : Nat) (v : List Char) (caps : Caps)
    (k : Caps → List Char → Option (Caps × List Char)) (hF : 1 ≤ F) :
    matchStep (matchRx F)
        (.rep 0 (some 1) (.grp none (.seq (.lit ',') (.seq (.lit ' ') .eps))))
        (',' :: ' ' :: v) caps k
      = match k caps v with
        | some res => some res
        | none => k caps (',' :: ' ' :: v) := by
  obtain ⟨F2, rfl⟩ : ∃ F2, F = F2 + 1 := ⟨F - 1, by omega⟩
  rw [mstep_rep0 _ _ _ _ _ _ (by simp)]
  rw [mstep_grpn, mstep_seq, mstep_lit_pos, mstep_seq, mstep_lit_pos, mstep_eps]
  simp only [hiDec]
  rw [matchRx_succ, mstep_rep0_zero]

theorem rep01_skip (F : Nat) (s : List Char) (caps : Caps)
    (k : Caps → List Char → Option (Caps × List Char))
    (h : s = [] ∨ ∃ c0 r, s = c0 :: r ∧ c0 ≠ ',') :
    matchStep (matchRx F)
        (.rep 0 (some 1) (.grp none (.seq (.lit ',') (.seq (.lit ' ') .eps))))
        s caps k = k caps s := by
  rw [mstep_rep0 _ _ _ _ _ _ (by simp)]
  rcases h with h | ⟨c0, r, h, hc0⟩ <;> subst h
  · rw [mstep_grpn, mstep_seq, mstep_lit_nil]
  · rw [mstep_grpn, mstep_seq, mstep_lit_neg _ _ _ _ _ _ hc0]

theorem rest2_mid (F : Nat) (v : List Char) (caps : Caps)
    (kk : Caps → List Char → Option (Caps × List Char))
    (hv : SecStart v) (hks : (kk caps v).isSome) (hF : 3 ≤ F) :
    matchStep (matchRx F)
        (.seq (.rep 0 (some 1) (.grp none (.seq (.lit ',') (.seq (.lit ' ') .eps))))
          (.seq (.nla (.seq (.rep 1 (some 3) .digit)
            (.seq (.cls ['N', 'S', 'n', 's']) .eps))) .eps))
        (',' :: ' ' :: v) caps kk = kk caps v := by
  obtain ⟨t, w, rfl, ht, hw⟩ := hv
  rw [mstep_seq, rep01_comma _ _ _ _ (by omega)]
  have hnla : matchStep (matchRx F)
      (.seq (.nla (.seq (.rep 1 (some 3) .digit)
        (.seq (.cls ['N', 'S', 'n', 's']) .eps))) .eps) (t ++ w) caps kk
      = kk caps (t ++ w) := by
    rw [mstep_seq, nla_ok_sec F t w caps _ ht hw hF, mstep_eps]
  simp only [hnla]
  obtain ⟨res, hres⟩ := Option.isSome_iff_exists.mp hks
  rw [hres]

theorem rest2_last (F : Nat) (rest : List Char) (caps : Caps)
    (kk : Caps → List Char → Option (Caps × List Char))
    (hrest : RestOK rest) (hF : 3 ≤ F) :
    matchStep (matchRx F)
        (.seq (.rep 0 (some 1) (.grp none (.seq (.lit ',') (.seq (.lit ' ') .eps))))
          (.seq (.nla (.seq (.rep 1 (some 3) .digit)
            (.seq (.cls ['N', 'S', 'n', 's']) .eps))) .eps))
        rest caps kk = kk caps rest := by
  rcases hrest with h | ⟨ds, c, w, h, hne, hlen, hdig, hcm⟩ <;> subst h
  · rw [mstep_seq, rep01_skip _ _ _ _ (Or.inl rfl), mstep_seq, nla_ok_nil,
      mstep_eps]
  · rw [mstep_seq, rep01_comma _ _ _ _ (by omega)]
    have hfail : matchStep (matchRx F)
        (.seq (.nla (.seq (.rep 1 (some 3) .digit)
          (.seq (.cls ['N', 'S', 'n', 's']) .eps))) .eps) (ds ++ c :: w) caps kk
        = none := by
      rw [mstep_seq, nla_fail_twp F ds c w caps _ hne hlen hdig hcm hF]
    simp only [hfail]
    rw [mstep_seq, nla_ok_comma, mstep_eps]

theorem iter_mid (F : Nat) (t v : List Char) (caps : Caps)
    (k : Caps → List Char → Option (Caps × List Char))
    (ht : secToken t) (hv : SecStart v) (hks : (k caps v).isSome) (hF : 3 ≤ F) :
    matchStep (matchRx F) iterA (t ++ ',' :: ' ' :: v) caps k = k caps v := by
  obtain ⟨htne, htlen, htdig⟩ := ht
  rw [show iterA = .grp none (.seq (.rep 1 (some 2) .digit)
      (.seq (.rep 0 (some 1) (.grp none (.seq (.lit ',') (.seq (.lit ' ') .eps))))
        (.seq (.nla (.seq (.rep 1 (some 3) .digit)
          (.seq (.cls ['N', 'S', 'n', 's']) .eps))) .eps))) from rfl]
  rw [mstep_grpn, mstep_seq]
  have hrest : matchStep (matchRx F)
      (.seq (.rep 0 (some 1) (.grp none (.seq (.lit ',') (.seq (.lit ' ') .eps))))
        (.seq (.nla (.seq (.rep 1 (some 3) .digit)
          (.seq (.cls ['N', 'S', 'n', 's']) .eps))) .eps))
      (',' :: ' ' :: v) caps (fun c1 s1 => k c1 s1) = k caps v :=
    rest2_mid F v caps _ hv hks hF
  have key := repDigitRun1s t F 2 (',' :: ' ' :: v) caps
    (fun c1 s1 => matchStep (matchRx F)
      (.seq (.rep 0 (some 1) (.grp none (.seq (.lit ',') (.seq (.lit ' ') .eps))))
        (.seq (.nla (.seq (.rep 1 (some 3) .digit)
          (.seq (.cls ['N', 'S', 'n', 's']) .eps))) .eps)) s1 c1
      (fun c2 s2 => k c2 s2))
    htne htlen htdig
    (fun x hx => by
      simp only [List.head?_cons, Option.some_inj] at hx
      subst hx
      decide)
    (by omega)
    (by simp only []; rw [hrest]; exact hks)
  rw [key]
  simp only []
  rw [hrest]

theorem iter_last (F : Nat) (t rest : List Char) (caps : Caps)
    (k : Caps → List Char → Option (Caps × List Char))
    (ht : secToken t) (hrest : RestOK rest) (hks : (k caps rest).isSome)
    (hF : 3 ≤ F) :
    matchStep (matchRx F) iterA (t ++ rest) caps k = k caps rest := by
  obtain ⟨htne, htlen, htdig⟩ := ht
  rw [show iterA = .grp none (.seq (.rep 1 (some 2) .digit)
      (.seq (.rep 0 (some 1) (.grp none (.seq (.lit ',') (.seq (.lit ' ') .eps))))
        (.seq (.nla (.seq (.rep 1 (some 3) .digit)
          (.seq (.cls ['N', 'S', 'n', 's']) .eps))) .eps))) from rfl]
  rw [mstep_grpn, mstep_seq]
  have hrst : matchStep (matchRx F)
      (.seq (.rep 0 (some 1) (.grp none (.seq (.lit ',') (.seq (.lit ' ') .eps))))
        (.seq (.nla (.seq (.rep 1 (some 3) .digit)
          (.seq (.cls ['N', 'S', 'n', 's']) .eps))) .eps))
      rest caps (fun c1 s1 => k c1 s1) = k caps rest :=
    rest2_last F rest caps _ hrest hF
  have hndr : ∀ c, rest.head? = some c → ¬c.isDigit := by
    intro c hc
    rcases hrest with h | ⟨ds, c2, w, h, _, _, _, _⟩ <;> subst h
    · simp at hc
    · simp only [List.head?_cons, Option.some_inj] at hc
      subst hc
      decide
  have key := repDigitRun1s t F 2 rest caps
    (fun c1 s1 => matchStep (matchRx F)
      (.seq (.rep 0 (some 1) (.grp none (.seq (.lit ',') (.seq (.lit ' ') .eps))))
        (.seq (.nla (.seq (.rep 1 (some 3) .digit)
          (.seq (.cls ['N', 'S', 'n', 's']) .eps))) .eps)) s1 c1
      (fun c2 s2 => k c2 s2))
    htne htlen htdig hndr (by omega)
    (by simp only []; rw [hrst]; exact hks)
  rw [key]
  simp only []
  rw [hrst]

theorem iter_fail (F : Nat) (s : List Char) (caps : Caps)
    (k : Caps → List Char → Option (Caps × List Char))
    (h : s = [] ∨ ∃ c0 r, s = c0 :: r ∧ ¬c0.isDigit) :
    matchStep (matchRx F) iterA s caps k = none := by
  rw [show iterA = .grp none (.seq (.rep 1 (some 2) .digit)
      (.seq (.rep 0 (some 1) (.grp none (.seq (.lit ',') (.seq (.lit ' ') .eps))))
        (.seq (.nla (.seq (.rep 1 (some 3) .digit)
          (.seq (.cls ['N', 'S', 'n', 's']) .eps))) .eps))) from rfl]
  rcases h with h | ⟨c0, r, h, hc0⟩ <;> subst h
  · rw [mstep_grpn, mstep_seq, mstep_rep1, mstep_digit_nil]
  · rw [mstep_grpn, mstep_seq, mstep_rep1, mstep_digit_neg _ _ _ _ _ hc0]

end TrsTools

namespace TrsTools

/-! ### Section-list repetition lemmas -/

theorem secrep0_nil (F : Nat) (rest : List Char) (caps : Caps)
    (k : Caps → List Char → Option (Caps × List Char))
    (hrest : RestOK rest) (hF : 1 ≤ F) :
    matchRx F (.rep 0 none iterA) rest caps k = k caps rest := by
  obtain ⟨F2, rfl⟩ : ∃ F2, F = F2 + 1 := ⟨F - 1, by omega⟩
  rw [matchRx_succ, mstep_rep0 _ _ _ _ _ _ (by simp)]
  have hfail : matchStep (matchRx F2) iterA rest caps
      (fun c1 s1 => matchRx F2 (.rep 0 (hiDec none) iterA) s1 c1 k) = none := by
    refine iter_fail _ _ _ _ ?_
    rcases hrest with h | ⟨ds, c, w, h, _, _, _, _⟩ <;> subst h
    · exact Or.inl rfl
    · exact Or.inr ⟨',', _, rfl, by decide⟩
  rw [hfail]

theorem secrep0 : ∀ (secs : List (List Char)) (F : Nat) (rest : List Char)
    (caps : Caps) (k : Caps → List Char → Option (Caps × List Char)),
    (∀ t ∈ secs, secToken t) → RestOK rest → (k caps rest).isSome →
    secs.length + 4 ≤ F →
    matchRx F (.rep 0 none iterA) (joinSep ", ".data secs ++ rest) caps k
      = k caps rest := by
  intro secs
  induction secs with
  | nil =>
    intro F rest caps k _ hrest hks hF
    rw [show joinSep ", ".data [] ++ rest = rest from rfl]
    exact secrep0_nil F rest caps k hrest (by omega)
  | cons t secs ih =>
    intro F rest caps k htok hrest hks hF
    obtain ⟨F2, rfl⟩ : ∃ F2, F = F2 + 1 := ⟨F - 1, by omega⟩
    rw [matchRx_succ, mstep_rep0 _ _ _ _ _ _ (by simp)]
    simp only [hiDec]
    cases secs with
    | nil =>
      have hstr : joinSep ", ".data [t] ++ rest = t ++ rest := rfl
      rw [hstr]
      have hk7 : (fun c1 s1 => matchRx F2 (.rep 0 none iterA) s1 c1 k) caps rest
          = k caps rest := by
        simp only []
        exact secrep0_nil F2 rest caps k hrest (by omega)
      have hiter := iter_last F2 t rest caps
        (fun c1 s1 => matchRx F2 (.rep 0 none iterA) s1 c1 k)
        (htok t (List.mem_cons_self _ _)) hrest
        (by rw [hk7]; exact hks) (by omega)
      rw [hiter, hk7]
      obtain ⟨res, hres⟩ := Option.isSome_iff_exists.mp hks
      rw [hres]
    | cons t2 secs2 =>
      have hstr : joinSep ", ".data (t :: t2 :: secs2) ++ rest
          = t ++ ',' :: ' ' :: (joinSep ", ".data (t2 :: secs2) ++ rest) := by
        show (t ++ ", ".data ++ joinSep ", ".data (t2 :: secs2)) ++ rest = _
        simp
      rw [hstr]
      have hsecstart : SecStart (joinSep ", ".data (t2 :: secs2) ++ rest) := by
        refine ⟨t2, ?_, ?_, htok t2 (by simp), ?_⟩
        · cases secs2 with
          | nil => exact rest
          | cons t3 secs3 =>
            exact ',' :: ' ' :: joinSep ", ".data (t3 :: secs3) ++ rest
        · cases secs2 with
          | nil => rfl
          | cons t3 secs3 =>
            show (t2 ++ ", ".data ++ joinSep ", ".data (t3 :: secs3)) ++ rest = _
            simp
        · cases secs2 with
          | nil =>
            rcases hrest with h | ⟨ds, c, w, h, _, _, _, _⟩ <;> subst h
            · exact Or.inl rfl
            · exact Or.inr ⟨_, rfl⟩
          | cons t3 secs3 => exact Or.inr ⟨_, rfl⟩
      have hk7 : (fun c1 s1 => matchRx F2 (.rep 0 none iterA) s1 c1 k) caps
          (joinSep ", ".data (t2 :: secs2) ++ rest) = k caps rest := by
        simp only []
        exact ih F2 rest caps k (fun x hx => htok x (List.mem_cons_of_mem _ hx))
          hrest hks (by simp at hF ⊢; omega)
      have hiter := iter_mid F2 t (joinSep ", ".data (t2 :: secs2) ++ rest) caps
        (fun c1 s1 => matchRx F2 (.rep 0 none iterA) s1 c1 k)
        (htok t (List.mem_cons_self _ _)) hsecstart
        (by rw [hk7]; exact hks) (by omega)
      rw [hiter, hk7]
      obtain ⟨res, hres⟩ := Option.isSome_iff_exists.mp hks
      rw [hres]

theorem secrep1 (secs : List (List Char)) (F : Nat) (rest : List Char)
    (caps : Caps) (k : Caps → List Char → Option (Caps × List Char))
    (hne : secs ≠ []) (htok : ∀ t ∈ secs, secToken t) (hrest : RestOK rest)
    (hks : (k caps rest).isSome) (hF : secs.length + 4 ≤ F) :
    matchStep (matchRx F) (.rep 1 none iterA)
        (joinSep ", ".data secs ++ rest) caps k = k caps rest := by
  match secs with
  | t :: secs2 =>
    rw [mstep_rep1]
    simp only [hiDec]
    cases secs2 with
    | nil =>
      have hstr : joinSep ", ".data [t] ++ rest = t ++ rest := rfl
      rw [hstr]
      have hk8 : (fun c1 s1 => matchRx F (.rep 0 none iterA) s1 c1 k) caps rest
          = k caps rest := by
        simp only []
        exact secrep0_nil F rest caps k hrest (by omega)
      have hiter := iter_last F t rest caps
        (fun c1 s1 => matchRx F (.rep 0 none iterA) s1 c1 k)
        (htok t (List.mem_cons_self _ _)) hrest
        (by rw [hk8]; exact hks) (by omega)
      rw [hiter, hk8]
    | cons t2 secs3 =>
      have hstr : joinSep ", ".data (t :: t2 :: secs3) ++ rest
          = t ++ ',' :: ' ' :: (joinSep ", ".data (t2 :: secs3) ++ rest) := by
        show (t ++ ", ".data ++ joinSep ", ".data (t2 :: secs3)) ++ rest = _
        simp
      rw [hstr]
      have hsecstart : SecStart (joinSep ", ".data (t2 :: secs3) ++ rest) := by
        refine ⟨t2, ?_, ?_, htok t2 (by simp), ?_⟩
        · cases secs3 with
          | nil => exact rest
          | cons t3 secs4 =>
            exact ',' :: ' ' :: joinSep ", ".data (t3 :: secs4) ++ rest
        · cases secs3 with
          | nil => rfl
          | cons t3 secs4 =>
            show (t2 ++ ", ".data ++ joinSep ", ".data (t3 :: secs4)) ++ rest = _
            simp
        · cases secs3 with
          | nil =>
            rcases hrest with h | ⟨ds, c, w, h, _, _, _, _⟩ <;> subst h
            · exact Or.inl rfl
            · exact Or.inr ⟨_, rfl⟩
          | cons t3 secs4 => exact Or.inr ⟨_, rfl⟩
      have hk8 : (fun c1 s1 => matchRx F (.rep 0 none iterA) s1 c1 k) caps
          (joinSep ", ".data (t2 :: secs3) ++ rest) = k caps rest := by
        simp only []
        exact secrep0 (t2 :: secs3) F rest caps k
          (fun x hx => htok x (List.mem_cons_of_mem _ hx)) hrest hks
          (by simp at hF ⊢; omega)
      have hiter := iter_mid F t (joinSep ", ".data (t2 :: secs3) ++ rest) caps
        (fun c1 s1 => matchRx F (.rep 0 none iterA) s1 c1 k)
        (htok t (List.mem_cons_self _ _)) hsecstart
        (by rw [hk8]; exact hks) (by omega)
      rw [hiter, hk8]

end TrsTools

namespace TrsTools

/-! ### Whole-pattern match lemma on a canonical group -/

theorem secGroup (F : Nat) (secs : List (List Char)) (rest : List Char)
    (caps : Caps) (k : Caps → List Char → Option (Caps × List Char))
    (hne : secs ≠ []) (htok : ∀ t ∈ secs, secToken t) (hrest : RestOK rest)
    (hks : (k (capSet caps "sec_list"
        (String.mk (joinSep ", ".data secs))) rest).isSome)
    (hF : secs.length + 4 ≤ F) :
    matchStep (matchRx F)
        (.grp (some "sec_list") (.seq (.rep 1 none iterA) .eps))
        (joinSep ", ".data secs ++ rest) caps k
      = k (capSet caps "sec_list" (String.mk (joinSep ", ".data secs))) rest := by
  rw [mstep_grp, mstep_seq]
  have htake : (joinSep ", ".data secs ++ rest).take
      ((joinSep ", ".data secs ++ rest).length - rest.length)
      = joinSep ", ".data secs := by
    have h1 : (joinSep ", ".data secs ++ rest).length - rest.length
        = (joinSep ", ".data secs).length := by
      simp
    rw [h1, List.take_left]
  have key := secrep1 secs F rest caps
    (fun c1 s1 => matchStep (matchRx F) .eps s1 c1
      (fun c2 s2 => k (capSet c2 "sec_list"
        (String.mk ((joinSep ", ".data secs ++ rest).take
          ((joinSep ", ".data secs ++ rest).length - s2.length)))) s2))
    hne htok hrest
    (by
      simp only [mstep_eps, htake]
      exact hks)
    hF
  rw [key]
  simp only [mstep_eps, htake]

theorem formatA_match (F : Nat) (g : GroupA) (rest : List Char) (caps : Caps)
    (hg : g.Shaped) (hrest : RestOK rest) (hF : g.secs.length + 4 ≤ F) :
    matchStep (matchRx F) formatA_rx (GroupA.render g ++ rest) caps
        (fun c s => some (c, s))
      = some (capSet (capSet (capSet caps "twp" (String.mk (g.twpd ++ [g.ns])))
          "rge" (String.mk (g.rged ++ [g.ew])))
          "sec_list" (String.mk (joinSep ", ".data g.secs)), rest) := by
  obtain ⟨⟨htne, htdig, _⟩, htlen, hns, ⟨hrne, hrdig, _⟩, hrlen, hew, hsne, htok⟩ := hg
  have hshape : GroupA.render g ++ rest
      = g.twpd ++ g.ns :: (g.rged ++ g.ew ::
          (' ' :: '-' :: ' ' :: (joinSep ", ".data g.secs ++ rest))) := by
    show (g.twpd ++ [g.ns] ++ g.rged ++ [g.ew] ++ [' ', '-', ' ']
      ++ joinSep ", ".data g.secs) ++ rest = _
    simp
  rw [hshape]
  rw [show formatA_rx
      = .seq (.grp (some "twp") (.seq (.rep 1 (some 3) .digit)
          (.seq (.cls ['N', 'S', 'n', 's']) .eps)))
        (.seq (.grp (some "rge") (.seq (.rep 1 (some 3) .digit)
            (.seq (.cls ['E', 'W', 'e', 'w']) .eps)))
          (.seq (.lit ' ') (.seq (.lit '-') (.seq (.lit ' ')
            (.seq (.grp (some "sec_list") (.seq (.rep 1 none iterA) .eps))
              .eps))))) from rfl]
  rw [mstep_seq]
  rw [twpAtom F "twp" ['N', 'S', 'n', 's'] g.twpd g.ns _ caps _ htne htlen htdig
    (by rcases hns with h | h <;> rw [h] <;> decide)
    letters_not_digit (by omega)]
  rw [mstep_seq]
  rw [twpAtom F "rge" ['E', 'W', 'e', 'w'] g.rged g.ew _ _ _ hrne hrlen hrdig
    (by rcases hew with h | h <;> rw [h] <;> decide)
    lettersEW_not_digit (by omega)]
  rw [mstep_seq, mstep_lit_pos, mstep_seq, mstep_lit_pos, mstep_seq,
    mstep_lit_pos]
  rw [mstep_seq]
  rw [secGroup F g.secs rest _ _ hsne htok hrest (by rw [mstep_eps]; rfl) hF]
  rw [mstep_eps]

end TrsTools

namespace TrsTools

/-! ### Search and finditer on canonical texts -/

theorem searchAux_some (r : Rx) (fuel : Nat) (s : List Char) (pos : Nat)
    (caps : Caps) (s1 : List Char)
    (h : matchRx fuel r s [] (fun caps s1 => some (caps, s1)) = some (caps, s1)) :
    searchAux r fuel s pos = some ⟨caps, pos, pos + (s.length - s1.length)⟩ := by
  cases s with
  | nil => rw [searchAux.eq_1, h]
  | cons c t => rw [searchAux.eq_2, h]

theorem searchAux_none_cons (r : Rx) (fuel : Nat) (c : Char) (t : List Char)
    (pos : Nat)
    (h : matchRx fuel r (c :: t) [] (fun caps s1 => some (caps, s1)) = none) :
    searchAux r fuel (c :: t) pos = searchAux r fuel t (pos + 1) := by
  rw [searchAux.eq_2, h]

theorem searchAux_none_nil (r : Rx) (fuel : Nat) (pos : Nat)
    (h : matchRx fuel r [] [] (fun caps s1 => some (caps, s1)) = none) :
    searchAux r fuel [] pos = none := by
  rw [searchAux.eq_1, h]

theorem capsChain_eq (a b c : String) :
    capSet (capSet (capSet [] "twp" a) "rge" b) "sec_list" c
      = [("twp", a), ("rge", b), ("sec_list", c)] := rfl

theorem search_group (mf2 : Nat) (g : GroupA) (T : List Char) (pos : Nat)
    (hg : g.Shaped) (hT : RestOK T) (hmf : g.secs.length + 4 ≤ mf2) :
    searchAux formatA_rx (mf2 + 1) (GroupA.render g ++ T) pos
      = some ⟨[("twp", String.mk (g.twpd ++ [g.ns])),
              ("rge", String.mk (g.rged ++ [g.ew])),
              ("sec_list", String.mk (joinSep ", ".data g.secs))],
            pos, pos + (GroupA.render g).length⟩ := by
  have hm := formatA_match mf2 g T [] hg hT hmf
  rw [searchAux_some _ _ _ pos _ _ (by rw [matchRx_succ]; exact hm)]
  have hlen : (GroupA.render g ++ T).length - T.length
      = (GroupA.render g).length := by
    simp
  rw [hlen, capsChain_eq]

theorem search_skip2 (mf2 : Nat) (v : List Char) (pos : Nat) :
    searchAux formatA_rx (mf2 + 1) (',' :: ' ' :: v) pos
      = searchAux formatA_rx (mf2 + 1) v (pos + 1 + 1) := by
  rw [searchAux_none_cons _ _ _ _ _
    (by rw [matchRx_succ]; exact formatA_fail_first mf2 ',' _ [] _ (by decide))]
  rw [searchAux_none_cons _ _ _ _ _
    (by rw [matchRx_succ]; exact formatA_fail_first mf2 ' ' _ [] _ (by decide))]

theorem search_nil (mf2 : Nat) (pos : Nat) :
    searchAux formatA_rx (mf2 + 1) [] pos = none := by
  rw [searchAux_none_nil _ _ _
    (by rw [matchRx_succ]; exact formatA_fail_nil mf2 [] _)]

theorem render_len_pos (g : GroupA) (hg : g.Shaped) :
    0 < (GroupA.render g).length := by
  obtain ⟨⟨htne, _, _⟩, _⟩ := hg
  have : 0 < g.twpd.length := List.length_pos.mpr htne
  simp [GroupA.render, GroupA.key]

theorem restok_cons (gs : List GroupA) (hne : gs ≠ [])
    (hsh : ∀ g ∈ gs, g.Shaped) : RestOK (',' :: ' ' :: renderA gs) := by
  match gs with
  | g :: gs2 =>
    have hg := hsh g (List.mem_cons_self _ _)
    obtain ⟨⟨htne, htdig, _⟩, htlen, hns, _⟩ := hg
    have hshape : ∃ w, renderA (g :: gs2) = g.twpd ++ g.ns :: w := by
      cases gs2 with
      | nil =>
        refine ⟨g.rged ++ g.ew :: (' ' :: '-' :: ' ' ::
          joinSep ", ".data g.secs), ?_⟩
        show GroupA.render g = _
        show (g.twpd ++ [g.ns] ++ g.rged ++ [g.ew] ++ [' ', '-', ' ']
          ++ joinSep ", ".data g.secs) = _
        simp
      | cons g2 gs3 =>
        refine ⟨g.rged ++ g.ew :: (' ' :: '-' :: ' ' ::
          (joinSep ", ".data g.secs ++ ',' :: ' ' ::
            joinSep ", ".data ((g2 :: gs3).map GroupA.render))), ?_⟩
        show (GroupA.render g ++ ", ".data
          ++ joinSep ", ".data ((g2 :: gs3).map GroupA.render)) = _
        show ((g.twpd ++ [g.ns] ++ g.rged ++ [g.ew] ++ [' ', '-', ' ']
          ++ joinSep ", ".data g.secs) ++ [',', ' ']
          ++ joinSep ", ".data ((g2 :: gs3).map GroupA.render)) = _
        simp
    obtain ⟨w, hw⟩ := hshape
    refine Or.inr ⟨g.twpd, g.ns, w, by rw [hw], htne, htlen, htdig, ?_⟩
    rcases hns with h | h <;> rw [h] <;> decide

theorem renderA_cons_ne (g : GroupA) (gs2 : List GroupA) (hne : gs2 ≠ []) :
    renderA (g :: gs2) = GroupA.render g ++ ',' :: ' ' :: renderA gs2 := by
  match gs2 with
  | g2 :: gs3 =>
    show (GroupA.render g ++ ", ".data
      ++ joinSep ", ".data ((g2 :: gs3).map GroupA.render)) = _
    simp
    rfl

end TrsTools

namespace TrsTools

theorem finditerAux_match (r : Rx) (mf f2 : Nat) (s : List Char) (pos : Nat)
    (cp : Caps) (d e : Nat) (hsearch : searchAux r mf s pos = some ⟨cp, d, e⟩)
    (hde : d < e) (hse : e - pos ≤ s.length) :
    finditerAux r mf (f2 + 1) s pos
      = ⟨cp, d, e⟩ :: finditerAux r mf f2 (s.drop (e - pos)) (pos + (e - pos)) := by
  rw [finditerAux.eq_2, hsearch]
  simp only []
  rw [if_pos hde, if_neg (by omega)]

theorem finditer_end (mf2 f2 : Nat) (pos : Nat) :
    finditerAux formatA_rx (mf2 + 1) (f2 + 1) [] pos = [] := by
  rw [finditerAux.eq_2, search_nil]

theorem finditer_tail : ∀ (gs : List GroupA) (fuel pos mf2 : Nat),
    gs ≠ [] → (∀ g ∈ gs, g.Shaped) → (∀ g ∈ gs, g.secs.length + 4 ≤ mf2) →
    gs.length + 1 ≤ fuel →
    (finditerAux formatA_rx (mf2 + 1) fuel (',' :: ' ' :: renderA gs) pos).map
        MatchRes.caps
      = gs.map (fun g => [("twp", String.mk (g.twpd ++ [g.ns])),
          ("rge", String.mk (g.rged ++ [g.ew])),
          ("sec_list", String.mk (joinSep ", ".data g.secs))]) := by
  intro gs
  induction gs with
  | nil => intro _ _ _ h; exact absurd rfl h
  | cons g gs2 ih =>
    intro fuel pos mf2 _ hsh hmf hfuel
    obtain ⟨f2, rfl⟩ : ∃ f2, fuel = f2 + 1 := ⟨fuel - 1, by omega⟩
    have hg := hsh g (List.mem_cons_self _ _)
    have hL := render_len_pos g hg
    cases gs2 with
    | nil =>
      have hrend : renderA [g] = GroupA.render g ++ [] := by
        simp [renderA, joinSep]
      rw [hrend]
      have hsearch : searchAux formatA_rx (mf2 + 1)
          (',' :: ' ' :: (GroupA.render g ++ [])) pos
          = some ⟨[("twp", String.mk (g.twpd ++ [g.ns])),
              ("rge", String.mk (g.rged ++ [g.ew])),
              ("sec_list", String.mk (joinSep ", ".data g.secs))],
            pos + 1 + 1, pos + 1 + 1 + (GroupA.render g).length⟩ := by
        rw [search_skip2]
        exact search_group mf2 g [] (pos + 1 + 1) hg (Or.inl rfl)
          (hmf g (List.mem_cons_self _ _))
      rw [finditerAux_match _ _ f2 _ _ _ _ _ hsearch (by omega)
        (by simp; omega)]
      have h2 : pos + 1 + 1 + (GroupA.render g).length - pos
          = (GroupA.render g).length + 2 := by omega
      rw [h2]
      have hdrop : (',' :: ' ' :: (GroupA.render g ++ [])).drop
          ((GroupA.render g).length + 2) = [] := by
        show (GroupA.render g ++ []).drop (GroupA.render g).length = []
        exact List.drop_left _ _
      rw [hdrop]
      obtain ⟨f3, rfl⟩ : ∃ f3, f2 = f3 + 1 := ⟨f2 - 1, by simp at hfuel; omega⟩
      rw [finditer_end]
      rfl
    | cons g2 gs3 =>
      have hrend : renderA (g :: g2 :: gs3)
          = GroupA.render g ++ ',' :: ' ' :: renderA (g2 :: gs3) :=
        renderA_cons_ne g (g2 :: gs3) (by simp)
      rw [hrend]
      have hT : RestOK (',' :: ' ' :: renderA (g2 :: gs3)) :=
        restok_cons (g2 :: gs3) (by simp)
          (fun x hx => hsh x (List.mem_cons_of_mem _ hx))
      have hsearch : searchAux formatA_rx (mf2 + 1)
          (',' :: ' ' :: (GroupA.render g ++ ',' :: ' ' :: renderA (g2 :: gs3))) pos
          = some ⟨[("twp", String.mk (g.twpd ++ [g.ns])),
              ("rge", String.mk (g.rged ++ [g.ew])),
              ("sec_list", String.mk (joinSep ", ".data g.secs))],
            pos + 1 + 1, pos + 1 + 1 + (GroupA.render g).length⟩ := by
        rw [search_skip2]
        exact search_group mf2 g _ (pos + 1 + 1) hg hT
          (hmf g (List.mem_cons_self _ _))
      rw [finditerAux_match _ _ f2 _ _ _ _ _ hsearch (by omega)
        (by simp; omega)]
      have h2 : pos + 1 + 1 + (GroupA.render g).length - pos
          = (GroupA.render g).length + 2 := by omega
      rw [h2]
      have hdrop : (',' :: ' ' :: (GroupA.render g ++ ',' :: ' ' ::
          renderA (g2 :: gs3))).drop ((GroupA.render g).length + 2)
          = ',' :: ' ' :: renderA (g2 :: gs3) := by
        show (GroupA.render g ++ ',' :: ' ' :: renderA (g2 :: gs3)).drop
          (GroupA.render g).length = _
        exact List.drop_left _ _
      rw [hdrop]
      rw [List.map_cons]
      rw [ih f2 _ mf2 (by simp)
        (fun x hx => hsh x (List.mem_cons_of_mem _ hx))
        (fun x hx => hmf x (List.mem_cons_of_mem _ hx))
        (by simp at hfuel ⊢; omega)]
      rfl

theorem finditer_whole (gs : List GroupA) (fuel pos mf2 : Nat)
    (hne : gs ≠ []) (hsh : ∀ g ∈ gs, g.Shaped)
    (hmf : ∀ g ∈ gs, g.secs.length + 4 ≤ mf2) (hfuel : gs.length + 1 ≤ fuel) :
    (finditerAux formatA_rx (mf2 + 1) fuel (renderA gs) pos).map MatchRes.caps
      = gs.map (fun g => [("twp", String.mk (g.twpd ++ [g.ns])),
          ("rge", String.mk (g.rged ++ [g.ew])),
          ("sec_list", String.mk (joinSep ", ".data g.secs))]) := by
  match gs with
  | g :: gs2 =>
    obtain ⟨f2, rfl⟩ : ∃ f2, fuel = f2 + 1 := ⟨fuel - 1, by omega⟩
    have hg := hsh g (List.mem_cons_self _ _)
    have hL := render_len_pos g hg
    cases gs2 with
    | nil =>
      have hrend : renderA [g] = GroupA.render g ++ [] := by
        simp [renderA, joinSep]
      rw [hrend]
      have hsearch := search_group mf2 g [] pos hg (Or.inl rfl)
        (hmf g (List.mem_cons_self _ _))
      rw [finditerAux_match _ _ f2 _ _ _ _ _ hsearch (by omega)
        (by simp)]
      have h2 : pos + (GroupA.render g).length - pos
          = (GroupA.render g).length := by omega
      rw [h2, List.drop_left]
      obtain ⟨f3, rfl⟩ : ∃ f3, f2 = f3 + 1 := ⟨f2 - 1, by simp at hfuel; omega⟩
      rw [finditer_end]
      rfl
    | cons g2 gs3 =>
      have hrend : renderA (g :: g2 :: gs3)
          = GroupA.render g ++ ',' :: ' ' :: renderA (g2 :: gs3) :=
        renderA_cons_ne g (g2 :: gs3) (by simp)
      rw [hrend]
      have hT : RestOK (',' :: ' ' :: renderA (g2 :: gs3)) :=
        restok_cons (g2 :: gs3) (by simp)
          (fun x hx => hsh x (List.mem_cons_of_mem _ hx))
      have hsearch := search_group mf2 g _ pos hg hT
        (hmf g (List.mem_cons_self _ _))
      rw [finditerAux_match _ _ f2 _ _ _ _ _ hsearch (by omega)
        (by simp)]
      have h2 : pos + (GroupA.render g).length - pos
          = (GroupA.render g).length := by omega
      rw [h2, List.drop_left]
      rw [List.map_cons]
      rw [finditer_tail (g2 :: gs3) f2 _ mf2 (by simp)
        (fun x hx => hsh x (List.mem_cons_of_mem _ hx))
        (fun x hx => hmf x (List.mem_cons_of_mem _ hx))
        (by simp at hfuel ⊢; omega)]
      rfl

end TrsTools

namespace TrsTools

theorem joinSep_le_of_mem (sep : List Char) :
    ∀ (parts : List (List Char)) (x : List Char), x ∈ parts →
      x.length ≤ (joinSep sep parts).length := by
  intro parts
  induction parts with
  | nil => intro x hx; cases hx
  | cons p ps ih =>
    intro x hx
    cases ps with
    | nil =>
      rcases List.mem_cons.mp hx with h | h
      · subst h; simp [joinSep]
      · cases h
    | cons q qs =>
      rcases List.mem_cons.mp hx with h | h
      · subst h; simp [joinSep]
      · have := ih x h
        simp [joinSep]
        omega

theorem length_le_joinSep (sep : List Char) :
    ∀ (parts : List (List Char)), (∀ p ∈ parts, p ≠ []) →
      parts.length ≤ (joinSep sep parts).length := by
  intro parts
  induction parts with
  | nil => intro _; simp [joinSep]
  | cons p ps ih =>
    intro h
    cases ps with
    | nil =>
      have hp := h p (List.mem_cons_self _ _)
      have : 0 < p.length := List.length_pos.mpr hp
      simp [joinSep]
      omega
    | cons q qs =>
      have hp := List.length_pos.mpr (h p (List.mem_cons_self _ _))
      have := ih (fun x hx => h x (List.mem_cons_of_mem _ hx))
      simp [joinSep] at this ⊢
      omega

theorem secs_le_render (g : GroupA) (hg : g.Shaped) :
    g.secs.length ≤ (GroupA.render g).length := by
  obtain ⟨_, _, _, _, _, _, _, hts⟩ := hg
  have h1 : g.secs.length ≤ (joinSep ", ".data g.secs).length :=
    length_le_joinSep _ _ (fun t ht => (hts t ht).1)
  have h2 : (GroupA.render g).length
      = g.key.length + 3 + (joinSep ", ".data g.secs).length := by
    simp [GroupA.render]
    omega
  omega

theorem render_le_renderA (g : GroupA) (gs : List GroupA) (h : g ∈ gs) :
    (GroupA.render g).length ≤ (renderA gs).length :=
  joinSep_le_of_mem _ _ _ (List.mem_map_of_mem _ h)

theorem gslen_le_renderA (gs : List GroupA) (hsh : ∀ g ∈ gs, g.Shaped) :
    gs.length ≤ (renderA gs).length := by
  have := length_le_joinSep ", ".data (gs.map GroupA.render)
    (fun p hp => by
      obtain ⟨g, hg, rfl⟩ := List.mem_map.mp hp
      have := render_len_pos g (hsh g hg)
      exact List.ne_nil_of_length_pos this)
  simpa [renderA] using this

theorem parse_formatA : parseRx FORMAT_A_pat = some formatA_rx := by decide

end TrsTools

namespace TrsTools

theorem split_nil (s0 : Char) (st : List Char) (fuel : Nat) (acc : List Char) :
    splitOnLAux s0 st fuel [] acc = [acc.reverse] := by
  cases fuel <;> rfl

theorem split_cons_hit (s0 : Char) (st : List Char) (fuel : Nat) (c : Char)
    (rest acc : List Char) (h : (s0 :: st).isPrefixOf (c :: rest) = true) :
    splitOnLAux s0 st (fuel + 1) (c :: rest) acc
      = acc.reverse :: splitOnLAux s0 st fuel (rest.drop st.length) [] := by
  rw [splitOnLAux, if_pos h]

theorem split_cons_miss (s0 : Char) (st : List Char) (fuel : Nat) (c : Char)
    (rest acc : List Char) (h : (s0 :: st).isPrefixOf (c :: rest) = false) :
    splitOnLAux s0 st (fuel + 1) (c :: rest) acc
      = splitOnLAux s0 st fuel rest (c :: acc) := by
  rw [splitOnLAux, if_neg (by simp [h])]

theorem split_consume : ∀ (t : List Char) (fuel : Nat) (s acc : List Char),
    (∀ c ∈ t, c ≠ ',') →
    splitOnLAux ',' [' '] (fuel + t.length) (t ++ s) acc
      = splitOnLAux ',' [' '] fuel s (t.reverse ++ acc) := by
  intro t
  induction t with
  | nil => intro fuel s acc _; rfl
  | cons c t' ih =>
    intro fuel s acc h
    have hc : c ≠ ',' := h c (List.mem_cons_self _ _)
    have hb : (',' == c) = false := beq_eq_false_iff_ne.mpr (fun hh => hc hh.symm)
    have hpre : ([','] ++ [' ']).isPrefixOf (c :: (t' ++ s)) = false := by
      simp [List.isPrefixOf, hb]
    have step := split_cons_miss ',' [' '] (fuel + t'.length) c (t' ++ s) acc hpre
    have hlen : fuel + (c :: t').length = fuel + t'.length + 1 := by simp; omega
    rw [List.cons_append, hlen, step, ih (fuel) s (c :: acc)
      (fun x hx => h x (List.mem_cons_of_mem _ hx))]
    simp

theorem split_joinSep : ∀ (parts : List (List Char)) (extra : Nat),
    (∀ p ∈ parts, ∀ c ∈ p, c ≠ ',') → parts ≠ [] →
    splitOnLAux ',' [' '] ((joinSep ", ".data parts).length + extra)
      (joinSep ", ".data parts) [] = parts := by
  intro parts
  induction parts with
  | nil => intro _ _ h; exact absurd rfl h
  | cons p ps ih =>
    intro extra h _
    cases ps with
    | nil =>
      have hj1 : joinSep ", ".data [p] = p := rfl
      rw [hj1]
      have key := split_consume p extra [] [] (h p (List.mem_cons_self _ _))
      rw [List.append_nil, List.append_nil, split_nil] at key
      rw [show p.length + extra = extra + p.length from by omega, key,
        List.reverse_reverse]
    | cons q qs =>
      have hj : joinSep ", ".data (p :: q :: qs)
          = p ++ ',' :: ' ' :: joinSep ", ".data (q :: qs) := by
        simp [joinSep]
      rw [hj]
      have hlen : (p ++ ',' :: ' ' :: joinSep ", ".data (q :: qs)).length + extra
          = ((joinSep ", ".data (q :: qs)).length + 2 + extra) + p.length := by
        simp; omega
      rw [hlen, split_consume p _ _ [] (h p (List.mem_cons_self _ _)),
        List.append_nil]
      have hpre : ((',' : Char) :: [' ']).isPrefixOf
          (',' :: ' ' :: joinSep ", ".data (q :: qs)) = true := by
        simp [List.isPrefixOf]
      have hlen2 : (joinSep ", ".data (q :: qs)).length + 2 + extra
          = ((joinSep ", ".data (q :: qs)).length + (1 + extra)) + 1 := by omega
      rw [hlen2, split_cons_hit _ _ _ _ _ _ hpre]
      show p.reverse.reverse :: splitOnLAux ',' [' ']
          ((joinSep ", ".data (q :: qs)).length + (1 + extra))
          (joinSep ", ".data (q :: qs)) [] = p :: q :: qs
      rw [List.reverse_reverse,
        ih (1 + extra) (fun x hx => h x (List.mem_cons_of_mem _ hx)) (by simp)]

theorem pySplit_joinSep (parts : List (List Char))
    (h : ∀ p ∈ parts, ∀ c ∈ p, c ≠ ',') (hne : parts ≠ []) :
    pySplit (String.mk (joinSep ", ".data parts)) ", "
      = parts.map String.mk := by
  show (splitOnLAux ',' [' '] ((joinSep ", ".data parts)).length
    (joinSep ", ".data parts) []).map String.mk = _
  rw [show (joinSep ", ".data parts).length
    = (joinSep ", ".data parts).length + 0 by omega]
  rw [split_joinSep parts 0 h hne]

end TrsTools

namespace TrsTools

theorem takeWhile_all_append (p : Char → Bool) :
    ∀ (l1 : List Char) (c : Char) (l2 : List Char),
      (∀ x ∈ l1, p x = true) → p c = false →
      (l1 ++ c :: l2).takeWhile p = l1 ∧ (l1 ++ c :: l2).dropWhile p = c :: l2 := by
  intro l1
  induction l1 with
  | nil =>
    intro c l2 _ hc
    constructor
    · simp [List.takeWhile_cons, hc]
    · simp [List.dropWhile_cons, hc]
  | cons a l1' ih =>
    intro c l2 h hc
    have ha := h a (List.mem_cons_self _ _)
    obtain ⟨h1, h2⟩ := ih c l2 (fun x hx => h x (List.mem_cons_of_mem _ hx)) hc
    constructor
    · simp [List.takeWhile_cons, ha, h1]
    · simp [List.dropWhile_cons, ha, h2]

theorem mk_append (a b : List Char) :
    String.mk a ++ String.mk b = String.mk (a ++ b) := rfl

end TrsTools

namespace TrsTools

theorem repr_of_canon (d : List Char) (hd : canonDigits d) :
    Nat.repr (digitsToNat d) = String.mk d := by
  apply String.ext
  exact hd.2.2

theorem normTwpRge_canon (d : List Char) (c defc : Char) (allowed : List Char)
    (hd : canonDigits d) (hcd : c.isDigit = false) (hc : c.toLower = c)
    (hmem : c ∈ allowed) :
    normTwpRge (String.mk (d ++ [c])) defc allowed
      = some (String.mk (d ++ [c])) := by
  obtain ⟨hne, hdig, hrepr⟩ := hd
  obtain ⟨htw, hdw⟩ := takeWhile_all_append Char.isDigit d c []
    (fun x hx => hdig x hx) hcd
  have hrs : Nat.repr (digitsToNat d) = String.mk d :=
    repr_of_canon d ⟨hne, hdig, hrepr⟩
  simp only [normTwpRge]
  rw [htw, hdw, if_neg hne]
  show (if c.toLower ∈ allowed then
      some (Nat.repr (digitsToNat d) ++ c.toLower.toString) else none)
    = some (String.mk (d ++ [c]))
  rw [hc, if_pos hmem, hrs,
    show c.toString = String.mk [c] from rfl, mk_append]

theorem fromTwprgesec_canon (td rd t : List Char) (nsc ewc : Char)
    (htd : canonDigits td) (hrd : canonDigits rd)
    (hns : nsc = 'n' ∨ nsc = 's') (hew : ewc = 'e' ∨ ewc = 'w')
    (ht : t ≠ []) (htdig : ∀ c ∈ t, c.isDigit) :
    fromTwprgesec (String.mk (td ++ [nsc])) (String.mk (rd ++ [ewc]))
      (SecVal.str (String.mk t)) none none
      = TRS.valid (String.mk (td ++ [nsc] ++ (rd ++ [ewc])))
          (Nat.repr (digitsToNat t)) := by
  have h1 : normTwpRge (String.mk (td ++ [nsc])) ((none : Option Char).getD 'n')
      ['n', 's'] = some (String.mk (td ++ [nsc])) :=
    normTwpRge_canon td nsc _ _ htd
      (by rcases hns with h | h <;> rw [h] <;> decide)
      (by rcases hns with h | h <;> rw [h] <;> decide)
      (by rcases hns with h | h <;> rw [h] <;> decide)
  have h2 : normTwpRge (String.mk (rd ++ [ewc])) ((none : Option Char).getD 'w')
      ['e', 'w'] = some (String.mk (rd ++ [ewc])) :=
    normTwpRge_canon rd ewc _ _ hrd
      (by rcases hew with h | h <;> rw [h] <;> decide)
      (by rcases hew with h | h <;> rw [h] <;> decide)
      (by rcases hew with h | h <;> rw [h] <;> decide)
  have h3 : (SecVal.str (String.mk t)).text = some (Nat.repr (digitsToNat t)) := by
    simp only [SecVal.text]
    rw [if_pos]
    constructor
    · intro hmt
      exact ht (congrArg String.data hmt)
    · exact List.all_eq_true.mpr (fun x hx => htdig x hx)
  simp only [fromTwprgesec, h1, h2, h3]
  rw [mk_append]

end TrsTools

namespace TrsTools

theorem capGet_twp (a b c : String) :
    capGet [("twp", a), ("rge", b), ("sec_list", c)] "twp" = a := rfl

theorem capGet_rge (a b c : String) :
    capGet [("twp", a), ("rge", b), ("sec_list", c)] "rge" = b := rfl

theorem capGet_sec_list (a b c : String) :
    capGet [("twp", a), ("rge", b), ("sec_list", c)] "sec_list" = c := rfl

theorem newRecs_canon (g : GroupA) (hg : g.Shaped) :
    (FORMAT_A_sec_key (String.mk (joinSep ", ".data g.secs))).map
      (fun sec => fromTwprgesec (String.mk (g.twpd ++ [g.ns]))
        (String.mk (g.rged ++ [g.ew])) sec none none)
      = g.secs.map
          (fun t => TRS.valid (String.mk g.key) (Nat.repr (digitsToNat t))) := by
  obtain ⟨htd, _, hns, hrd, _, hew, hsne, hts⟩ := hg
  have hsplit := pySplit_joinSep g.secs
    (fun p hp c hc => by
      have hd := (hts p hp).2.2 c hc
      intro hceq
      subst hceq
      exact absurd hd (by decide))
    hsne
  simp only [FORMAT_A_sec_key, hsplit, List.map_map]
  apply List.map_congr_left
  intro t ht
  simp only [Function.comp]
  rw [fromTwprgesec_canon g.twpd g.rged t g.ns g.ew htd hrd hns hew
    (hts t ht).1 (hts t ht).2.2]
  congr 1
  apply congrArg String.mk
  simp [GroupA.key]

theorem extractA (gs : List GroupA) (hne : gs ≠ [])
    (hsh : ∀ g ∈ gs, g.Shaped) :
    custom_trs_list (String.mk (renderA gs)) (.src FORMAT_A_pat)
      FORMAT_A_sec_key none none = some (expectedRecords gs) := by
  simp only [custom_trs_list, reCompile, parse_formatA, Option.map_some']
  congr 1
  rw [foldl_append_eq_flatten, List.nil_append]
  have hmapcaps : ∀ (l : List MatchRes),
      l.map (fun mo => newRecords mo FORMAT_A_sec_key none none)
        = (l.map MatchRes.caps).map
            (fun cp => (FORMAT_A_sec_key (capGet cp "sec_list")).map
              (fun sec => fromTwprgesec (capGet cp "twp") (capGet cp "rge")
                sec none none)) := by
    intro l
    rw [List.map_map]
    rfl
  rw [hmapcaps]
  have hfu : searchFuel (String.mk (renderA gs)).data
      = (2 * (renderA gs).length + 15) + 1 := by
    simp [searchFuel]
  have hw := finditer_whole gs ((String.mk (renderA gs)).data.length + 1) 0
    (2 * (renderA gs).length + 15) hne hsh
    (fun g hgm => by
      have h1 := secs_le_render g (hsh g hgm)
      have h2 := render_le_renderA g gs hgm
      omega)
    (by
      have := gslen_le_renderA gs hsh
      simp
      omega)
  rw [show reFinditer formatA_rx (String.mk (renderA gs)).data
      = finditerAux formatA_rx ((2 * (renderA gs).length + 15) + 1)
          ((String.mk (renderA gs)).data.length + 1)
          (String.mk (renderA gs)).data 0 from by rw [reFinditer, hfu]]
  rw [show (String.mk (renderA gs)).data = renderA gs from rfl] at hw ⊢
  rw [hw, List.map_map]
  simp only [expectedRecords]
  congr 1
  apply List.map_congr_left
  intro g hgm
  simp only [Function.comp]
  rw [capGet_twp, capGet_rge, capGet_sec_list]
  exact newRecs_canon g (hsh g hgm)

end TrsTools

namespace TrsTools

theorem firstSeen_const_block (k : String) :
    ∀ (n : Nat) (rest : List String),
      firstSeen (List.replicate (n + 1) k ++ rest)
        = k :: (firstSeen rest).filter (fun x => x != k) := by
  intro n
  induction n with
  | zero => intro rest; rfl
  | succ n ih =>
    intro rest
    rw [show List.replicate (n + 1 + 1) k ++ rest
      = k :: (List.replicate (n + 1) k ++ rest) from rfl]
    rw [show firstSeen (k :: (List.replicate (n + 1) k ++ rest))
      = k :: (firstSeen (List.replicate (n + 1) k ++ rest)).filter
          (fun x => x != k) from rfl]
    rw [ih rest]
    congr 1
    rw [List.filter_cons]
    simp [List.filter_filter]

theorem expectedRecords_cons (g : GroupA) (gs : List GroupA) :
    expectedRecords (g :: gs)
      = g.secs.map (fun t => TRS.valid (String.mk g.key) (Nat.repr (digitsToNat t)))
        ++ expectedRecords gs := by
  simp [expectedRecords]

theorem mk_key_injective (g g' : GroupA) (h : GroupA.key g ≠ GroupA.key g') :
    String.mk g.key ≠ String.mk g'.key := by
  intro hmk
  exact h (congrArg String.data hmk)

theorem expectedRecords_keys (gs : List GroupA) :
    (expectedRecords gs).map TRS.twprge
      = (gs.map (fun g => List.replicate g.secs.length (String.mk g.key))).flatten := by
  simp only [expectedRecords, List.map_flatten, List.map_map]
  congr 1
  apply List.map_congr_left
  intro g _
  show (g.secs.map (fun t => TRS.valid (String.mk g.key)
      (Nat.repr (digitsToNat t)))).map TRS.twprge
    = List.replicate g.secs.length (String.mk g.key)
  rw [List.map_map,
    show (TRS.twprge ∘ fun t => TRS.valid (String.mk g.key)
      (Nat.repr (digitsToNat t))) = (fun _ => String.mk g.key) from rfl,
    List.map_const']

theorem firstSeen_blocks : ∀ (gs : List GroupA),
    (∀ g ∈ gs, g.secs ≠ []) →
    ((gs.map GroupA.key).Pairwise (fun a b => a ≠ b)) →
    firstSeen ((gs.map
        (fun g => List.replicate g.secs.length (String.mk g.key))).flatten)
      = gs.map (fun g => String.mk g.key) := by
  intro gs
  induction gs with
  | nil => intro _ _; rfl
  | cons g gs' ih =>
    intro hne hpw
    rw [List.map_cons] at hpw
    obtain ⟨hhead, htail⟩ := List.pairwise_cons.mp hpw
    have hnz : g.secs.length = (g.secs.length - 1) + 1 := by
      have := List.length_pos.mpr (hne g (List.mem_cons_self _ _))
      omega
    rw [List.map_cons, List.flatten_cons, hnz, firstSeen_const_block]
    rw [ih (fun x hx => hne x (List.mem_cons_of_mem _ hx)) htail]
    rw [List.map_cons]
    congr 1
    apply List.filter_eq_self.mpr
    intro x hx
    obtain ⟨g', hg', rfl⟩ := List.mem_map.mp hx
    have hk : GroupA.key g ≠ GroupA.key g' :=
      hhead _ (List.mem_map_of_mem _ hg')
    simpa using (mk_key_injective g' g (fun hh => hk hh.symm))

theorem orderedKeys_expected (gs : List GroupA)
    (hne : ∀ g ∈ gs, g.secs ≠ [])
    (hpw : (gs.map GroupA.key).Pairwise (fun a b => a ≠ b)) :
    orderedKeys (expectedRecords gs) = gs.map (fun g => String.mk g.key) := by
  rw [ordered_eq_firstSeen, expectedRecords_keys]
  exact firstSeen_blocks gs hne hpw

end TrsTools

namespace TrsTools

theorem filter_block_miss (k : String) (g : GroupA)
    (h : String.mk g.key ≠ k) :
    (g.secs.map (fun t => TRS.valid (String.mk g.key)
      (Nat.repr (digitsToNat t)))).filter (fun t => t.twprge == k) = [] := by
  apply List.filter_eq_nil_iff.mpr
  intro a ha
  obtain ⟨t, _, rfl⟩ := List.mem_map.mp ha
  simp [TRS.twprge, h]

theorem filter_expected_none : ∀ (gs : List GroupA) (k : String),
    (∀ g ∈ gs, String.mk g.key ≠ k) →
    (expectedRecords gs).filter (fun t => t.twprge == k) = [] := by
  intro gs
  induction gs with
  | nil => intro k _; rfl
  | cons g gs' ih =>
    intro k h
    rw [expectedRecords_cons, List.filter_append,
      filter_block_miss k g (h g (List.mem_cons_self _ _)),
      ih k (fun x hx => h x (List.mem_cons_of_mem _ hx)), List.nil_append]

theorem groupSecs_at : ∀ (gs : List GroupA) (g : GroupA), g ∈ gs →
    ((gs.map GroupA.key).Pairwise (fun a b => a ≠ b)) →
    groupSecs (expectedRecords gs) (String.mk g.key)
      = g.secs.map (fun t => Nat.repr (digitsToNat t)) := by
  intro gs
  induction gs with
  | nil => intro g hg; cases hg
  | cons g0 gs' ih =>
    intro g hg hpw
    rw [List.map_cons] at hpw
    obtain ⟨hhead, htail⟩ := List.pairwise_cons.mp hpw
    show ((expectedRecords (g0 :: gs')).filter
        (fun t => t.twprge == String.mk g.key)).map TRS.sec = _
    rw [expectedRecords_cons, List.filter_append, List.map_append]
    rcases List.mem_cons.mp hg with hg0 | hg'
    · subst hg0
      rw [filter_expected_none gs' (String.mk g.key)
        (fun g' hg' => by
          have hk : GroupA.key g ≠ GroupA.key g' :=
            hhead _ (List.mem_map_of_mem _ hg')
          exact mk_key_injective g' g (fun hh => hk hh.symm))]
      rw [List.filter_eq_self.mpr (by
        intro a ha
        obtain ⟨t, _, rfl⟩ := List.mem_map.mp ha
        simp [TRS.twprge])]
      rw [List.map_map, List.map_nil, List.append_nil]
      rfl
    · have hk : String.mk g0.key ≠ String.mk g.key :=
        mk_key_injective g0 g (hhead _ (List.mem_map_of_mem _ hg'))
      rw [filter_block_miss _ g0 hk, List.map_nil, List.nil_append]
      exact ih g hg' htail

theorem joinSep_cons_append (sep a b : List Char) (t : List (List Char)) :
    joinSep sep ((a ++ sep ++ b) :: t) = a ++ sep ++ joinSep sep (b :: t) := by
  cases t <;> simp [joinSep]

theorem intercalate_go_mk (sepl : List Char) :
    ∀ (rest : List (List Char)) (x : List Char),
      String.intercalate.go (String.mk x) (String.mk sepl) (rest.map String.mk)
        = String.mk (joinSep sepl (x :: rest)) := by
  intro rest
  induction rest with
  | nil => intro x; rfl
  | cons y t ih =>
    intro x
    rw [List.map_cons]
    rw [show String.intercalate.go (String.mk x) (String.mk sepl)
        (String.mk y :: t.map String.mk)
      = String.intercalate.go (String.mk x ++ String.mk sepl ++ String.mk y)
          (String.mk sepl) (t.map String.mk) from rfl]
    rw [mk_append, mk_append, ih, joinSep_cons_append]
    rfl

theorem intercalate_mk (sep : String) (parts : List (List Char))
    (hne : parts ≠ []) :
    String.intercalate sep (parts.map String.mk)
      = String.mk (joinSep sep.data parts) := by
  match parts with
  | p :: rest =>
    rw [List.map_cons]
    rw [show String.intercalate sep (String.mk p :: rest.map String.mk)
      = String.intercalate.go (String.mk p) sep (rest.map String.mk) from rfl]
    exact intercalate_go_mk sep.data rest p

end TrsTools

namespace TrsTools

theorem serializeA (gs : List GroupA) (hne : gs ≠ [])
    (hsh : ∀ g ∈ gs, g.Shaped)
    (hpw : (gs.map GroupA.key).Pairwise (fun a b => a ≠ b)) :
    trs_list_to_format_a (expectedRecords gs) ", " ", " false
      = String.mk (renderA (gs.map GroupA.normalize)) := by
  rw [show trs_list_to_format_a (expectedRecords gs) ", " ", " false
    = formatCore (expectedRecords gs) ", " ", " from rfl]
  simp only [formatCore]
  rw [orderedKeys_expected gs (fun g hg => (hsh g hg).2.2.2.2.2.2.1) hpw,
    List.map_map]
  have hcomp : ∀ g ∈ gs,
      ((fun twprge => twprge ++ " - "
          ++ String.intercalate ", " (groupSecs (expectedRecords gs) twprge))
        ∘ (fun g => String.mk g.key)) g
      = String.mk (GroupA.render (GroupA.normalize g)) := by
    intro g hg
    show String.mk g.key ++ " - "
        ++ String.intercalate ", " (groupSecs (expectedRecords gs) (String.mk g.key))
      = String.mk (GroupA.render (GroupA.normalize g))
    rw [groupSecs_at gs g hg hpw]
    rw [show g.secs.map (fun t => Nat.repr (digitsToNat t))
      = (g.secs.map (fun t => (Nat.repr (digitsToNat t)).data)).map String.mk
      from by rw [List.map_map]; rfl]
    rw [intercalate_mk ", " _ (by
      simp only [ne_eq, List.map_eq_nil_iff]
      exact (hsh g hg).2.2.2.2.2.2.1)]
    rw [show (String.mk g.key ++ " - " : String)
      = String.mk (g.key ++ " - ".data) from rfl, mk_append]
    rfl
  rw [List.map_congr_left hcomp]
  rw [show gs.map (fun g => String.mk (GroupA.render (GroupA.normalize g)))
    = ((gs.map GroupA.normalize).map GroupA.render).map String.mk
    from by rw [List.map_map, List.map_map]; rfl]
  rw [intercalate_mk ", " _ (by
    simp only [ne_eq, List.map_eq_nil_iff]
    exact hne)]
  rfl

theorem roundA (gs : List GroupA) (hne : gs ≠ [])
    (hsh : ∀ g ∈ gs, g.Shaped)
    (hpw : (gs.map GroupA.key).Pairwise (fun a b => a ≠ b)) :
    roundTripA (String.mk (renderA gs))
      = some (String.mk (renderA (gs.map GroupA.normalize))) := by
  rw [roundTripA, extractA gs hne hsh, Option.map_some',
    serializeA gs hne hsh hpw]

end TrsTools

namespace TrsTools

/-- C1 counterexample.  The round-trip claim fails beyond zero-padding
normalization: the Format-A-shaped text `"154n97w - 1, 154n97w - 2"` (the
rendering of two canonically shaped groups that share the Township/Range
key `154n97w`) extracts and re-serializes to `"154n97w - 1, 2"`, because
the serializer groups records by key; the input's section tokens carry no
zero padding, so its padding-normal form is the input itself, which the
round trip does not reproduce. -/
theorem claim_C1_duplicate_key_counterexample :
    (∀ g ∈ ([⟨"154".data, 'n', "97".data, 'w', [['1']]⟩,
        ⟨"154".data, 'n', "97".data, 'w', [['2']]⟩] : List GroupA), g.Shaped) ∧
    String.mk (renderA [⟨"154".data, 'n', "97".data, 'w', [['1']]⟩,
        ⟨"154".data, 'n', "97".data, 'w', [['2']]⟩])
      = "154n97w - 1, 154n97w - 2" ∧
    ([⟨"154".data, 'n', "97".data, 'w', [['1']]⟩,
        ⟨"154".data, 'n', "97".data, 'w', [['2']]⟩] : List GroupA).map
        GroupA.normalize
      = [⟨"154".data, 'n', "97".data, 'w', [['1']]⟩,
        ⟨"154".data, 'n', "97".data, 'w', [['2']]⟩] ∧
    roundTripA "154n97w - 1, 154n97w - 2" = some "154n97w - 1, 2" ∧
    roundTripA "154n97w - 1, 154n97w - 2"
      ≠ some (String.mk (renderA ([⟨"154".data, 'n', "97".data, 'w', [['1']]⟩,
          ⟨"154".data, 'n', "97".data, 'w', [['2']]⟩] : List GroupA))) := by
  decide

/-- C1 (amended).  Round trip: for every canonical Format-A-shaped text
whose groups bear pairwise distinct Township/Range keys, Format A list
extraction (`custom_trs_list` with the `FORMAT_A` pattern and decoder)
followed by serialization (`trs_list_to_format_a` with default delimiters)
reproduces the text up to section-number zero-padding normalization
(leading zeros collapse to unpadded digits); in particular the documented
example `"154n97w - 14, 1, 155n98w - 11"` serializes back to itself. -/
theorem claim_C1_round_trip :
    (∀ gs : List GroupA, gs ≠ [] → (∀ g ∈ gs, g.Shaped) →
      (gs.map GroupA.key).Pairwise (fun a b => a ≠ b) →
      roundTripA (String.mk (renderA gs))
        = some (String.mk (renderA (gs.map GroupA.normalize)))) ∧
    roundTripA "154n97w - 14, 1, 155n98w - 11"
      = some "154n97w - 14, 1, 155n98w - 11" := by
  constructor
  · intro gs h1 h2 h3
    exact roundA gs h1 h2 h3
  · decide

/-- Witness for the amended C1 round trip at a concrete padded input: the
text `"154n97w - 04, 1, 155n98w - 11"` round-trips to its padding-normal
form `"154n97w - 4, 1, 155n98w - 11"`. -/
theorem claim_C1_round_trip_witness :
    roundTripA (String.mk (renderA
        [⟨"154".data, 'n', "97".data, 'w', [['0', '4'], ['1']]⟩,
         ⟨"155".data, 'n', "98".data, 'w', [['1', '1']]⟩]))
      = some (String.mk (renderA
          (([⟨"154".data, 'n', "97".data, 'w', [['0', '4'], ['1']]⟩,
             ⟨"155".data, 'n', "98".data, 'w', [['1', '1']]⟩] :
            List GroupA).map GroupA.normalize))) :=
  claim_C1_round_trip.1 _ (by decide) (by decide) (by decide)

end TrsTools
